import Mathlib

/-!
# Verification of the `nr` word-sequence frequency counter

Shallow embedding of the repository `joshuarubin/nr`:

* `wordreader/wordreader.go` — a TR29-style word segmenter (`wordReader.ReadWord`).
  The input byte stream is modelled at the code-point level as a `List Char`
  (the Go code reads one decoded rune at a time via `bufio.Reader.ReadRune`,
  and only ever writes whole runes into its buffer with `WriteRune`,
  so every buffer operation of the Go code is a code-point operation).
  The classification tables (`tableALetter`, `tableExtend`, …) are a generated
  data file that is not among the sources; the classifier is therefore a
  parameter `cls : Classifier` assigning a TR29 word-break class to each code
  point, and theorems state the facts they need about it as hypotheses.
* `wordseq/wordseq.go` — normalization (`unicode.IsPunct` stripping and
  `unicode.ToLower` case-folding, modelled as parameters `ip`/`tl` since the
  Unicode tables live in the Go standard library), the sliding window, the
  `container/heap`-backed frequency index, and top-N extraction (`Process`).
  The `container/heap` algorithms (`up`, `down`, `Init`, `Push`, `Fix`, `Pop`)
  are embedded faithfully from their documented fixed implementation in the
  Go standard library, with an explicit fuel argument standing for the
  `for` loops (the fuel given is always sufficient, see `downFuel_ge`/`upFuel`).
-/

namespace NR

/-! ## Code-point classes (data model of the spec, §3)

`wordreader.go` queries static range tables; each code point belongs to at
most one word-break class.  `Classifier` is the pure lookup service. -/

/-- TR29 word-break class of a code point, as used by `wordreader.go`. -/
inductive CPClass where
  | aletter | hebrewLetter | numericCl | katakanaCl | extendNumLetCl
  | midLetterCl | midNumCl | midNumLetCl | extendCl | formatCl
  | newlineCl | crCl | lfCl | zwjCl | regionalIndicator
  | eBaseCl | eBaseGAZCl | eModifierCl | glueAfterZwjCl | otherCl
deriving DecidableEq, Repr

/-- Pure lookup assigning each code point its word-break class
(`tableALetter`, `tableExtend`, … in the Go code). -/
def Classifier : Type := Char → CPClass

/-! ### Literal code points used by `wordreader.go` -/

def carriageReturn : Char := '\u000d'
def lineFeed : Char := '\u000a'
def doubleQuote : Char := '"'
def singleQuote : Char := '\''
def zwj : Char := '\u200d'

/-- `utf8.RuneError` (U+FFFD), the sentinel used by the Go code for
"no code point" (empty buffer lookback, end-of-input lookahead). -/
def runeError : Char := '\ufffd'

/-! ### The class test functions of `wordreader.go`
Each mirrors one of the small `func xxx(r rune) bool` helpers. -/

/-- `ahLetter`: `unicode.In(r, tableALetter, tableHebrewLetter)`. -/
def ahLetter (cls : Classifier) (r : Char) : Bool :=
  cls r == .aletter || cls r == .hebrewLetter

/-- `midLetter`: `unicode.In(r, tableMidLetter)`. -/
def midLetter (cls : Classifier) (r : Char) : Bool := cls r == .midLetterCl

/-- `midnum`: `unicode.In(r, tableMidNum)`. -/
def midnum (cls : Classifier) (r : Char) : Bool := cls r == .midNumCl

/-- `midNumLetQ`: `r == singleQuote || unicode.In(r, tableMidNumLet)`. -/
def midNumLetQ (cls : Classifier) (r : Char) : Bool :=
  r == singleQuote || cls r == .midNumLetCl

/-- `numeric`: `unicode.In(r, tableNumeric)`. -/
def numeric (cls : Classifier) (r : Char) : Bool := cls r == .numericCl

/-- `hebrew`: `unicode.In(r, tableHebrewLetter)`. -/
def hebrew (cls : Classifier) (r : Char) : Bool := cls r == .hebrewLetter

/-- `katakana`: `unicode.In(r, tableKatakana)`. -/
def katakana (cls : Classifier) (r : Char) : Bool := cls r == .katakanaCl

/-- `extendNumLet`: `unicode.In(r, tableExtendNumLet)`. -/
def extendNumLet (cls : Classifier) (r : Char) : Bool := cls r == .extendNumLetCl

/-- `eModifier`: `unicode.In(r, tableEModifier)`. -/
def eModifier (cls : Classifier) (r : Char) : Bool := cls r == .eModifierCl

/-- `eBase`: `unicode.In(r, tableEBase)`. -/
def eBase (cls : Classifier) (r : Char) : Bool := cls r == .eBaseCl

/-- `ebg`: `unicode.In(r, tableEBaseGAZ)`. -/
def ebg (cls : Classifier) (r : Char) : Bool := cls r == .eBaseGAZCl

/-- `extend`: `unicode.In(r, tableExtend)`. -/
def extendT (cls : Classifier) (r : Char) : Bool := cls r == .extendCl

/-- `format`: `unicode.In(r, tableFormat)`. -/
def formatT (cls : Classifier) (r : Char) : Bool := cls r == .formatCl

/-- `glueAfterZWJ`: `unicode.In(r, tableGlueAfterZWJ)`. -/
def glueAfterZWJ (cls : Classifier) (r : Char) : Bool := cls r == .glueAfterZwjCl

/-- `newline`: `unicode.In(r, tableNewline)`. -/
def newline (cls : Classifier) (r : Char) : Bool := cls r == .newlineCl

/-- `ri`: `unicode.In(r, tableRegionalIndicator)`. -/
def ri (cls : Classifier) (r : Char) : Bool := cls r == .regionalIndicator

/-! ### Lookback state (`wordReader.lastRune`, `getLastRune`)

`getLastRune` decodes the last rune of the byte buffer (returning
`utf8.RuneError` on an empty buffer); at the code-point level that is the
last element of the buffer.  `wordReader.lastRune` walks the buffer
backwards, stops as soon as a decode yields `utf8.RuneError` (which at the
code-point level happens exactly when the buffer is exhausted or the stored
code point is U+FFFD itself), skips code points classified Extend or Format,
and retains the first and second code point so found. -/

/-- `getLastRune`: the most recent raw code point of the buffer
(`utf8.RuneError` when the buffer is empty). -/
def getLastRune (buf : List Char) : Char := buf.getLast?.getD runeError

/-- One backwards scan step of `wordReader.lastRune`: from the reversed
buffer, the first code point that is neither skipped (Extend/Format) nor the
scan-terminating `utf8.RuneError`, together with the rest of the scan. -/
def firstRetained (cls : Classifier) : List Char → Char × List Char
  | [] => (runeError, [])
  | c :: rest =>
    if c == runeError then (runeError, [])
    else if extendT cls c || formatT cls c then firstRetained cls rest
    else (c, rest)

/-- `wordReader.lastRune`'s retained lookback pair
`(lastRune, secondToLastRune)`: the two most recent code points of the
buffer, skipping Extend/Format code points, each `utf8.RuneError` when
missing. -/
def lastRunes (cls : Classifier) (buf : List Char) : Char × Char :=
  let p := firstRetained cls buf.reverse
  (p.1, (firstRetained cls p.2).1)

/-- `wordReader.peekRune`: one code point of lookahead; any read failure
(including end of input) resolves to `utf8.RuneError`, and the code point is
not consumed. -/
def peekRune (rest : List Char) : Char := rest.head?.getD runeError

/-! ### The boundary rule cascade of `wordReader.ReadWord`

The Go `switch` evaluates the rules in this exact precedence; the first
match wins.  `wbClassify` returns which case fires, `keepRune` whether the
incoming code point is appended to the buffer (keep) or starts a new token
(boundary: cases WB3a, WB3b and the default WB999). -/

/-- Identifier of the first matching `switch` case in `wordReader.ReadWord`. -/
inductive WBRule where
  | wb3 | wb3a | wb3b | wb3c | wb4 | wb5 | wb6 | wb7 | wb7a | wb7b | wb7c
  | wb8 | wb9 | wb10 | wb11 | wb12 | wb13 | wb13a | wb13b | wb14 | wb15 | wb999
deriving DecidableEq, Repr

/-- The `switch` of `wordReader.ReadWord`, case by case in source order:
which boundary rule decides the incoming code point `r`, given the current
buffer `buf` and the lookahead code point `next`. -/
def wbClassify (cls : Classifier) (buf : List Char) (r next : Char) : WBRule :=
  let lr := lastRunes cls buf
  let lastR := lr.1
  let stl := lr.2
  let lit := getLastRune buf
  if lit == carriageReturn && r == lineFeed then .wb3
  else if newline cls lastR || lastR == carriageReturn || lastR == lineFeed then .wb3a
  else if newline cls r || r == carriageReturn || r == lineFeed then .wb3b
  else if lastR == zwj && (glueAfterZWJ cls r || ebg cls r) then .wb3c
  else if extendT cls r || formatT cls r || r == zwj then .wb4
  else if ahLetter cls lastR && ahLetter cls r then .wb5
  else if ahLetter cls lastR && (midLetter cls r || midNumLetQ cls r) && ahLetter cls next then .wb6
  else if ahLetter cls stl && (midLetter cls lastR || midNumLetQ cls lastR) && ahLetter cls r then .wb7
  else if hebrew cls lastR && r == singleQuote then .wb7a
  else if hebrew cls lastR && r == doubleQuote && hebrew cls next then .wb7b
  else if hebrew cls stl && lastR == doubleQuote && hebrew cls r then .wb7c
  else if numeric cls lastR && numeric cls r then .wb8
  else if ahLetter cls lastR && numeric cls r then .wb9
  else if numeric cls lastR && ahLetter cls r then .wb10
  else if numeric cls stl && (midnum cls lastR || midNumLetQ cls lastR) && numeric cls r then .wb11
  else if numeric cls lastR && (midnum cls r || midNumLetQ cls r) && numeric cls next then .wb12
  else if katakana cls lastR && katakana cls r then .wb13
  else if (ahLetter cls lastR || numeric cls lastR || katakana cls lastR
      || extendNumLet cls lastR) && extendNumLet cls r then .wb13a
  else if extendNumLet cls lastR && (ahLetter cls r || numeric cls r || katakana cls r) then .wb13b
  else if (eBase cls lastR || ebg cls lastR) && eModifier cls r then .wb14
  else if !(ri cls stl) && ri cls lastR && ri cls r then .wb15
  else .wb999

/-- Whether the incoming code point is appended to the current buffer
(`true`) or finalizes it as a token (`false`): exactly the cases of the Go
`switch` that `return wr.emitWordPushRune(r)`. -/
def keepRune (cls : Classifier) (buf : List Char) (r next : Char) : Bool :=
  match wbClassify cls buf r next with
  | .wb3a | .wb3b | .wb999 => false
  | _ => true

/-! ### `ReadWord` and the token stream

The wordReader's mutable state is the unread input (`src`, followed by its
terminal condition `fin`: `none` for a clean end of stream, `some e` for a
read error `e`) and the token buffer `buf`.  `readWordGo` is one call of
`wordReader.ReadWord`; `readWords` is the stream of all tokens obtained by
calling `ReadWord` until it stops returning tokens, as `wordseq.Process`
does. -/

/-- The error results of `ReadWord`: `io.EOF`, or a propagated read error. -/
inductive ReadRes (ε : Type) where
  | eof
  | ioErr (e : ε)
deriving DecidableEq, Repr

/-- One call of `wordReader.ReadWord`: returns the emitted token (or error)
together with the wordReader's state after the call (unread input, buffer).
The loop reads one code point `r` per iteration; with `err == io.EOF` and a
non-empty buffer the buffer is emitted (`emitWord`), with any other error
the error is returned; otherwise the rule cascade either appends `r` to the
buffer or finalizes the buffer via `emitWordPushRune r` (which retries if
the finalized word is empty). -/
def readWordGo (cls : Classifier) {ε : Type} (fin : Option ε) :
    List Char → List Char → Except (ReadRes ε) (List Char) × List Char × List Char
  | [], buf =>
    match fin with
    | some e => (.error (.ioErr e), [], buf)
    | none => if buf.isEmpty then (.error .eof, [], buf) else (.ok buf, [], [])
  | r :: rest, buf =>
    if keepRune cls buf r (peekRune rest) then readWordGo cls fin rest (buf ++ [r])
    else if buf.isEmpty then readWordGo cls fin rest [r]
    else (.ok buf, rest, [r])

/-- The full token stream: all tokens returned by successive `ReadWord`
calls, and the terminal condition (`none` = clean end of stream, `some e` =
read error `e` propagated).  `readWords_eq_readWordGo` proves this is the
iteration of `readWordGo`. -/
def readWords (cls : Classifier) {ε : Type} (fin : Option ε) :
    List Char → List Char → List (List Char) × Option ε
  | [], buf =>
    match fin with
    | some e => ([], some e)
    | none => if buf.isEmpty then ([], none) else ([buf], none)
  | r :: rest, buf =>
    if keepRune cls buf r (peekRune rest) then readWords cls fin rest (buf ++ [r])
    else if buf.isEmpty then readWords cls fin rest [r]
    else
      let p := readWords cls fin rest [r]
      (buf :: p.1, p.2)

/-- The token stream is the iteration of single `ReadWord` calls. -/
theorem readWords_eq_readWordGo (cls : Classifier) {ε : Type} (fin : Option ε) :
    ∀ (src buf : List Char),
      readWords cls fin src buf =
        match readWordGo cls fin src buf with
        | (.error .eof, _, _) => ([], none)
        | (.error (.ioErr e), _, _) => ([], some e)
        | (.ok w, rest, buf') =>
            let p := readWords cls fin rest buf'
            (w :: p.1, p.2)
  | [], buf => by
    cases fin with
    | some e => simp [readWords, readWordGo]
    | none =>
      by_cases h : buf.isEmpty <;> simp [readWords, readWordGo, h]
  | r :: rest, buf => by
    by_cases hk : keepRune cls buf r (peekRune rest)
    · simpa [readWords, readWordGo, hk] using readWords_eq_readWordGo cls fin rest (buf ++ [r])
    · by_cases hb : buf.isEmpty
      · simpa [readWords, readWordGo, hk, hb] using readWords_eq_readWordGo cls fin rest [r]
      · simp [readWords, readWordGo, hk, hb]

/-! ## `wordseq/wordseq.go` -/

/-- `isSpace`: "basically the same as unicode.IsSpace but works on strings
and includes CRLF" — the exact fixed list of whitespace strings discarded
before normalization (strings are compared at the code-point level). -/
def isSpace (s : List Char) : Bool :=
  s == [' '] || s == ['\t'] || s == ['\n'] || s == ['\u000b'] || s == ['\u000c'] ||
  s == ['\u000d'] || s == ['\u0085'] || s == ['\u00a0'] ||
  s == ['\u000d', '\u000a'] || s == ['\u000a', '\u000d']

/-- The normalization step of `wordseq.Process` applied to one token:
discard a token on the `isSpace` list; otherwise drop every code point with
`unicode.IsPunct` (`ip`) and lower-case the rest with `unicode.ToLower`
(`tl`); discard if nothing remains.  `ip` and `tl` are parameters because
the Unicode category and case tables live in the Go standard library. -/
def normalizeWord (ip : Char → Bool) (tl : Char → Char) (tok : List Char) :
    Option (List Char) :=
  if isSpace tok then none
  else
    let w := (tok.filter (fun r => !ip r)).map tl
    if w.isEmpty then none else some w

/-- A `wordseq.Sequence`: a word list and its occurrence count.  The Go
struct also carries a heap-position field `index`; `container/heap` keeps it
equal to the sequence's position in the heap array at all times (it is set
on every `Swap`/`Push`/`Pop`), so the embedding represents it by the
position itself. -/
structure SeqEntry where
  words : List (List Char)
  count : Nat
deriving DecidableEq, Repr

instance : Inhabited SeqEntry := ⟨⟨[], 0⟩⟩

/-- Go string comparison `<` on words.  Go compares UTF-8 byte strings
lexicographically; UTF-8 preserves code-point order, so at the code-point
level this is lexicographic comparison of the code-point sequences. -/
def strLess : List Char → List Char → Bool
  | [], [] => false
  | [], _ :: _ => true
  | _ :: _, [] => false
  | a :: as, b :: bs => if a ≠ b then a < b else strLess as bs

/-- The word-list comparison loop of `seqHeap.Less`:
`for k := range h[i].Words { if Words[k] != Words[k] { return < } }; return false`.
The Go loop indexes the second list with the first list's indices; in
`Process` every sequence has exactly `seqSize` words, so the lists always
have equal length (on a shorter second list the Go code would panic; the
embedding returns `false` there, a case the proofs show unreachable). -/
def wordsLess : List (List Char) → List (List Char) → Bool
  | [], _ => false
  | _ :: _, [] => false
  | a :: as, b :: bs => if a ≠ b then strLess a b else wordsLess as bs

/-- `seqHeap.Less`: first by count, max to min; ties broken by the word
lists compared lexicographically, ascending. -/
def seqLess (a b : SeqEntry) : Bool :=
  if a.count ≠ b.count then a.count > b.count
  else wordsLess a.words b.words

/-! ### `container/heap` (Go standard library)

`wordseq.Process` drives its `seqHeap` exclusively through
`heap.Init`/`heap.Push`/`heap.Fix`/`heap.Pop`, whose fixed implementation
over `h.Len/Less/Swap/Push/Pop` is embedded here on the heap array
(`seqHeap` is a `map[int]*Sequence` with the dense keys `0..len-1`, i.e.
an array).  The `for` loops of `siftUp`/`siftDown` are written with an
explicit fuel argument; the fuel supplied by the wrappers is always enough
(`siftUp` strictly decreases its index towards 0, `siftDown` strictly
increases it towards `n`), so the out-of-fuel branch is unreachable. -/

/-- `h.Swap(i, j)` on the heap array. -/
def lswap (l : List α) (i j : Nat) (dd : α) : List α :=
  (l.set i (l.getD j dd)).set j (l.getD i dd)

/-- `up(h, j)` of `container/heap`:
`for { i := (j-1)/2; if i == j || !h.Less(j, i) { break }; h.Swap(i, j); j = i }`. -/
def siftUp (lt : α → α → Bool) (dd : α) : Nat → List α → Nat → List α
  | 0, l, _ => l
  | fuel + 1, l, j =>
    let i := (j - 1) / 2
    if i == j || !lt (l.getD j dd) (l.getD i dd) then l
    else siftUp lt dd fuel (lswap l i j dd) i

/-- The child selection of `down`: `j := j1;`
`if j2 := j1+1; j2 < n && h.Less(j2, j1) { j = j2 }` for `j1 = 2*i+1`. -/
def childSel (lt : α → α → Bool) (dd : α) (l : List α) (i n : Nat) : Nat :=
  if 2 * i + 1 + 1 < n && lt (l.getD (2 * i + 1 + 1) dd) (l.getD (2 * i + 1) dd)
  then 2 * i + 1 + 1 else 2 * i + 1

/-- `down(h, i0, n)` of `container/heap`, returning the array and the final
index (Go returns `i > i0`, i.e. whether the element moved):
`for { j1 := 2*i+1; if j1 >= n { break }; j := j1;`
`if j2 := j1+1; j2 < n && h.Less(j2, j1) { j = j2 };`
`if !h.Less(j, i) { break }; h.Swap(i, j); i = j }`. -/
def siftDown (lt : α → α → Bool) (dd : α) : Nat → List α → Nat → Nat → List α × Nat
  | 0, l, i, _ => (l, i)
  | fuel + 1, l, i, n =>
    if 2 * i + 1 < n then
      let j := childSel lt dd l i n
      if lt (l.getD j dd) (l.getD i dd) then siftDown lt dd fuel (lswap l i j dd) j n
      else (l, i)
    else (l, i)

/-- `heap.Push(h, x)`: append `x` (the interface `Push`), then `up` from the
last position. -/
def heapPushGo (lt : α → α → Bool) (dd : α) (l : List α) (x : α) : List α :=
  siftUp lt dd (l.length + 1) (l ++ [x]) l.length

/-- `heap.Fix(h, i)`: `if !down(h, i, h.Len()) { up(h, i) }`. -/
def heapFixGo (lt : α → α → Bool) (dd : α) (l : List α) (i : Nat) : List α :=
  let p := siftDown lt dd l.length l i l.length
  if p.2 > i then p.1 else siftUp lt dd (i + 1) p.1 i

/-- `heap.Pop(h)`: `n := h.Len()-1; h.Swap(0, n); down(h, 0, n)`, then the
interface `Pop` removes and returns the last element. -/
def heapPopGo (lt : α → α → Bool) (dd : α) (l : List α) : α × List α :=
  let n := l.length - 1
  let l1 := lswap l 0 n dd
  let l2 := (siftDown lt dd n l1 0 n).1
  (l2.getD n dd, l2.take n)

/-! ### The state of `wordseq.Process`

`Process` owns a sliding `window`, a `cache` from fingerprint to sequence
and the `seqHeap`.  Each `*Sequence` is modelled as a slot in an
append-only `arena` (allocation order); the heap array `hp` holds arena
ids, and the `cache` maps a fingerprint key to an arena id.  The Go
fingerprint is `sha1.Sum(strings.Join(seq, "\x00"))`; the embedding keys
the cache by the joined string itself (the sha1 digest is a fixed-width
surrogate for exactly this string; none of the verified claims depend on
digest collisions, and identical word lists always produce identical
keys in both). -/

/-- The NUL joiner: `strings.Join(seq, "\x00")` at the code-point level. -/
def seqKey (seq : List (List Char)) : List Char := List.intercalate ['\u0000'] seq

/-- The comparison `seqHeap.Less` lifted to arena ids, as used by every
heap operation in `Process`. -/
def ltArena (arena : List SeqEntry) (a b : Nat) : Bool :=
  seqLess (arena.getD a default) (arena.getD b default)

/-- The mutable state of the `Process` loop. -/
structure PState where
  window : List (List Char)
  arena : List SeqEntry
  cache : List (List Char × Nat)
  hp : List Nat
deriving Repr

def initPState : PState := ⟨[], [], [], []⟩

/-- The body of the `Process` loop for one normalized word `w`: append to
the window; if the window has reached `seqSize` words take it as the next
sequence and slide by one; then register the sequence — a cache hit
increments the count and calls `heap.Fix` at the sequence's heap index, a
miss creates a count-1 sequence, caches it and calls `heap.Push`. -/
def stepWord (seqSize : Nat) (st : PState) (w : List Char) : PState :=
  let window := st.window ++ [w]
  if window.length < seqSize then { st with window := window }
  else
    let seq := window
    let window := window.drop 1
    let key := seqKey seq
    match st.cache.lookup key with
    | some id =>
      let arena := st.arena.set id
        { (st.arena.getD id default) with count := (st.arena.getD id default).count + 1 }
      { window := window, arena := arena, cache := st.cache,
        hp := heapFixGo (ltArena arena) 0 st.hp (st.hp.indexOf id) }
    | none =>
      let id := st.arena.length
      { window := window,
        arena := st.arena ++ [{ words := seq, count := 1 }],
        cache := (key, id) :: st.cache,
        hp := heapPushGo (ltArena (st.arena ++ [{ words := seq, count := 1 }])) 0 st.hp id }

/-- The body of the `Process` loop for one token: skip `isSpace` tokens,
normalize, skip empty normalizations, otherwise `stepWord`. -/
def stepTok (ip : Char → Bool) (tl : Char → Char) (seqSize : Nat)
    (st : PState) (tok : List Char) : PState :=
  match normalizeWord ip tl tok with
  | none => st
  | some w => stepWord seqSize st w

/-- The extraction loop of `Process`:
`for len(ret) < topN && h.Len() > 0 { ret = append(ret, heap.Pop(h)) }`. -/
def extractTop (arena : List SeqEntry) : Nat → List Nat → List SeqEntry
  | 0, _ => []
  | _ + 1, [] => []
  | topN + 1, hp@(_ :: _) =>
    let p := heapPopGo (ltArena arena) 0 hp
    arena.getD p.1 default :: extractTop arena topN p.2

/-- Errors of `wordseq.Process`. -/
inductive ProcErr (ε : Type) where
  | invalidArgument
  | ioErr (e : ε)
deriving DecidableEq, Repr

/-- `wordseq.Process`: fail fast on an invalid configuration; read the word
stream; fold the per-token step over it; on a read error propagate it and
return no result; at clean end of stream extract the top `topN` sequences.
`seqSize` and `topN` are Go `int`s, hence `Int`. -/
def ProcessGo (cls : Classifier) (ip : Char → Bool) (tl : Char → Char) {ε : Type}
    (src : List Char) (fin : Option ε) (seqSize topN : Int) :
    Except (ProcErr ε) (List SeqEntry) :=
  if seqSize < 1 || topN < 1 then .error .invalidArgument
  else
    let ws := readWords cls fin src []
    match ws.2 with
    | some e => .error (.ioErr e)
    | none =>
      let st := ws.1.foldl (stepTok ip tl seqSize.toNat) initPState
      .ok (extractTop st.arena topN.toNat st.hp)

/-! ## Sample Unicode data

The static data the code depends on (the word-break range tables of the
repository's generated `tables.go`, and the Go standard library's category
and case tables) is not part of the sources under verification. -/

/-- Modelled from the spec: the classification tables are "large static
range data … a data dependency, not algorithmic logic" (spec §9).  The
missing `tables.go` is modelled by this sample classifier, which assigns
the spec's classes to the code points used in concrete examples, following
the Unicode 9 word-break property for those code points (the repository's
own segmentation tests pin these assignments — in particular ZWJ is its own
class, not Extend or Format, or the emoji-ZWJ tests could not pass). -/
def sampleCls : Classifier := fun c =>
  if ('a' ≤ c ∧ c ≤ 'z') ∨ ('A' ≤ c ∧ c ≤ 'Z') then .aletter
  else if 0x5d0 ≤ c.toNat ∧ c.toNat ≤ 0x5ea then .hebrewLetter
  else if '0' ≤ c ∧ c ≤ '9' then .numericCl
  else if c = '\u000d' then .crCl
  else if c = '\u000a' then .lfCl
  else if c = '\u000b' ∨ c = '\u000c' ∨ c = '\u0085' then .newlineCl
  else if c = '\u200d' then .zwjCl
  else if c = ':' ∨ c = '·' then .midLetterCl
  else if c = ',' ∨ c = ';' then .midNumCl
  else if c = '.' then .midNumLetCl
  else if 0x1F1E6 ≤ c.toNat ∧ c.toNat ≤ 0x1F1FF then .regionalIndicator
  else if c = '\u0301' then .extendCl
  else if c = '\u00ad' then .formatCl
  else if c = '\u202f' then .extendNumLetCl
  else .otherCl

/-- Modelled from the spec: `unicode.IsPunct` ("strip every code point of
general category punctuation", spec §4.2) restricted to the punctuation
code points appearing in concrete examples. -/
def sampleIp (c : Char) : Bool :=
  c = '(' ∨ c = ')' ∨ c = ',' ∨ c = '.' ∨ c = ';' ∨ c = ':' ∨ c = '!' ∨
  c = '?' ∨ c = '\'' ∨ c = '"' ∨ c = '·'

/-- Modelled from the spec: `unicode.ToLower` ("simple per-code-point
lower-casing only", spec §9) restricted to ASCII letters. -/
def sampleTl (c : Char) : Char :=
  if 'A' ≤ c ∧ c ≤ 'Z' then Char.ofNat (c.toNat + 32) else c

/-! ## Derived quantities used by the count-conservation claims -/

/-- The normalized words produced from a token stream: the tokens that
survive the whitespace discard and have a non-empty remainder after
punctuation stripping and lower-casing.  The spec's `V` is the length of
this list. -/
def normWords (ip : Char → Bool) (tl : Char → Char) (toks : List (List Char)) :
    List (List Char) :=
  toks.filterMap (normalizeWord ip tl)

/-- The sum of the `Count` fields over all tracked sequences. -/
def sumCounts (arena : List SeqEntry) : Nat := (arena.map SeqEntry.count).sum

/-- Validity of the fingerprint cache: every cached id denotes an arena
slot. -/
def CacheOK (st : PState) : Prop := ∀ p ∈ st.cache, p.2 < st.arena.length

/-! ## Heap invariants

`container/heap` maintains a min-heap with respect to `Less`: no child is
`Less` than its parent.  With `seqHeap.Less` this makes the root the
highest-ranked sequence.  The correctness arguments are stated for an
arbitrary element type with a comparison that agrees, on the elements at
hand, with a key map into a linear order. -/

/-- The min-heap property on the first `n` entries of the heap array:
no child at `j ∈ [1, n)` is `lt`-less than its parent at `(j-1)/2`. -/
def IsHeapN {α : Type} (lt : α → α → Bool) (dd : α) (l : List α) (n : Nat) : Prop :=
  ∀ j, 0 < j → j < n → lt (l.getD j dd) (l.getD ((j - 1) / 2) dd) = false

/-- The min-heap property on the whole heap array. -/
def IsHeap {α : Type} (lt : α → α → Bool) (dd : α) (l : List α) : Prop :=
  IsHeapN lt dd l l.length

/-- On the elements of `l`, the comparison `lt` is the strict order of the
key map `k`. -/
def KeyedLt {α κ : Type} [LinearOrder κ] (lt : α → α → Bool) (k : α → κ) (l : List α) : Prop :=
  ∀ a ∈ l, ∀ b ∈ l, lt a b = decide (k a < k b)

/-- Loop invariant of `down(h, i0, n)`: every parent edge below `n` holds
except possibly those into position `i`, and (when `i` has a parent) the
children of `i` are not less than `i`'s parent. -/
def DownInv {α : Type} (lt : α → α → Bool) (dd : α) (l : List α) (n i : Nat) : Prop :=
  (∀ m, 0 < m → m < n → (m - 1) / 2 ≠ i → lt (l.getD m dd) (l.getD ((m - 1) / 2) dd) = false) ∧
  (0 < i → ∀ c, c < n → (c - 1) / 2 = i →
    lt (l.getD c dd) (l.getD ((i - 1) / 2) dd) = false)

/-- Loop invariant of `up(h, j)` (over the whole array): every parent edge
holds except possibly the one out of position `j`, and (when `j` has a
parent) the children of `j` are not less than `j`'s parent. -/
def UpInv {α : Type} (lt : α → α → Bool) (dd : α) (l : List α) (j : Nat) : Prop :=
  (∀ m, 0 < m → m < l.length → m ≠ j →
    lt (l.getD m dd) (l.getD ((m - 1) / 2) dd) = false) ∧
  (0 < j → ∀ c, c < l.length → (c - 1) / 2 = j →
    lt (l.getD c dd) (l.getD ((j - 1) / 2) dd) = false)

/-- The rank of a sequence in a linear order: count max-to-min, ties broken
by the word lists ascending (`seqLess` decides exactly this order on
equal-length word lists, see `seqLess_eq_decide`). -/
def seqRank (e : SeqEntry) : ℕᵒᵈ ×ₗ List (List Char) :=
  toLex (OrderDual.toDual e.count, e.words)

/-- The key map on arena ids corresponding to `ltArena`. -/
def rankOf (arena : List SeqEntry) (id : Nat) : ℕᵒᵈ ×ₗ List (List Char) :=
  seqRank (arena.getD id default)

/-- The full invariant of the `Process` loop state, for sequence size `K`:
the window holds fewer than `K` words; every cached id is an arena slot and
every arena slot is cached under its fingerprint; all tracked sequences
have exactly `K` words and pairwise distinct word lists; the heap array
holds exactly the arena ids; and the heap property holds. -/
def ProcInv (K : Nat) (st : PState) : Prop :=
  st.window.length + 1 ≤ K ∧
  CacheOK st ∧
  (∀ id, id < st.arena.length →
    (seqKey (st.arena.getD id default).words, id) ∈ st.cache) ∧
  (∀ e ∈ st.arena, e.words.length = K) ∧
  (∀ i j, i < st.arena.length → j < st.arena.length → i ≠ j →
    (st.arena.getD i default).words ≠ (st.arena.getD j default).words) ∧
  st.hp.Perm (List.range st.arena.length) ∧
  IsHeap (ltArena st.arena) 0 st.hp

/-- The eight single code points of the `isSpace` list. -/
def WS (c : Char) : Bool :=
  c == ' ' || c == '\u0009' || c == '\u000a' || c == '\u000b' || c == '\u000c' ||
  c == '\u000d' || c == '\u0085' || c == '\u00a0'

/-- Code points a rule of the cascade can append after a non-boundary
character without regard to that character: Extend/Format/ZWJ (rule 4),
Glue_After_Zwj/E_Base_GAZ (rule 3c), E_Modifier (rule 14). -/
def Keepish (cls : Classifier) (c : Char) : Bool :=
  extendT cls c || formatT cls c || c == zwj || glueAfterZWJ cls c || ebg cls c ||
  eModifier cls c

/-- The whitespace code points outside the CR/LF/Newline classes. -/
def SpaceHead (c : Char) : Bool := c == ' ' || c == '\u0009' || c == '\u00a0'

/-- The shapes a token buffer of the word reader can take: no whitespace at
all; one of the newline-family tokens (a lone CR, CR LF, or a single
Newline-class whitespace code point); or a space-family code point followed
only by `Keepish` code points. -/
def GoodBuf (cls : Classifier) (buf : List Char) : Prop :=
  (∀ x ∈ buf, WS x = false) ∨
  buf = ['\u000d'] ∨ buf = ['\u000d', '\u000a'] ∨
  buf = ['\u000a'] ∨ buf = ['\u000b'] ∨ buf = ['\u000c'] ∨ buf = ['\u0085'] ∨
  (∃ c t, SpaceHead c = true ∧ buf = c :: t ∧ ∀ x ∈ t, Keepish cls x = true)

/-- Modelled from the spec: the facts about the word-break tables
(`tables.go`), `unicode.IsPunct` and `unicode.ToLower` that the
normalization-idempotence argument uses — the classes of the whitespace
code points and of U+FFFD and U+200D, that no whitespace or `Keepish` code
point is punctuation, and that lower-casing fixes whitespace, never
produces whitespace, is idempotent, and does not change punctuation-hood. -/
structure NormFacts (cls : Classifier) (ip : Char → Bool) (tl : Char → Char) : Prop where
  cls_cr : cls '\u000d' = .crCl
  cls_lf : cls '\u000a' = .lfCl
  cls_vt : cls '\u000b' = .newlineCl
  cls_ff : cls '\u000c' = .newlineCl
  cls_nel : cls '\u0085' = .newlineCl
  cls_sp : cls ' ' = .otherCl
  cls_tab : cls '\u0009' = .otherCl
  cls_nbsp : cls '\u00a0' = .otherCl
  cls_fffd : cls '\ufffd' = .otherCl
  cls_zwj : cls '\u200d' = .zwjCl
  ip_ws : ∀ c, WS c = true → ip c = false
  ip_keepish : ∀ c, Keepish cls c = true → ip c = false
  tl_ws : ∀ c, WS c = true → tl c = c
  tl_nws : ∀ c, WS c = false → WS (tl c) = false
  tl_idem : ∀ c, tl (tl c) = tl c
  ip_tl : ∀ c, ip (tl c) = ip c

/-- The classes a retained lookback code point of a space-headed buffer can
have: the head's `other`, or the class of a kept ZWJ, Glue_After_Zwj,
E_Base_GAZ or E_Modifier code point. -/
def SCl (k : CPClass) : Bool :=
  k == .otherCl || k == .zwjCl || k == .eBaseGAZCl || k == .eModifierCl ||
  k == .glueAfterZwjCl

/-- The lookback property carried through `firstRetained`: not the scan
sentinel, and either skipped (Extend/Format) or of an `SCl` class. -/
def SProp (cls : Classifier) (x : Char) : Prop :=
  (x == runeError) = false ∧
  ((extendT cls x || formatT cls x) = true ∨ SCl (cls x) = true)


/-! # Theorems -/

/-! ## The token stream: totality and reconstruction -/

/-- On a cleanly terminated stream the segmentation pass never fails. -/
theorem readWords_none_snd (cls : Classifier) {ε : Type} :
    ∀ (src buf : List Char), (readWords cls (ε := ε) none src buf).2 = none
  | [], buf => by by_cases h : buf.isEmpty <;> simp [readWords, h]
  | r :: rest, buf => by
    by_cases hk : keepRune cls buf r (peekRune rest)
    · simpa [readWords, hk] using readWords_none_snd cls rest (buf ++ [r])
    · by_cases hb : buf.isEmpty
      · simpa [readWords, hk, hb] using readWords_none_snd cls rest [r]
      · simpa [readWords, hk, hb] using readWords_none_snd cls rest [r]

/-- On a stream terminated by a read error, the error is propagated. -/
theorem readWords_some_snd (cls : Classifier) {ε : Type} (e : ε) :
    ∀ (src buf : List Char), (readWords cls (some e) src buf).2 = some e
  | [], buf => by simp [readWords]
  | r :: rest, buf => by
    by_cases hk : keepRune cls buf r (peekRune rest)
    · simpa [readWords, hk] using readWords_some_snd cls e rest (buf ++ [r])
    · by_cases hb : buf.isEmpty
      · simpa [readWords, hk, hb] using readWords_some_snd cls e rest [r]
      · simpa [readWords, hk, hb] using readWords_some_snd cls e rest [r]

/-- Concatenating the emitted tokens yields the pending buffer followed by
the unread input. -/
theorem readWords_join (cls : Classifier) {ε : Type} :
    ∀ (src buf : List Char), (readWords cls (ε := ε) none src buf).1.flatten = buf ++ src
  | [], buf => by
    by_cases h : buf.isEmpty
    · simp [readWords, h, List.isEmpty_iff.mp h]
    · simp [readWords, h]
  | r :: rest, buf => by
    by_cases hk : keepRune cls buf r (peekRune rest)
    · simpa [readWords, hk] using readWords_join cls rest (buf ++ [r])
    · by_cases hb : buf.isEmpty
      · simpa [readWords, hk, hb, List.isEmpty_iff.mp hb] using readWords_join cls rest [r]
      · simpa [readWords, hk, hb] using readWords_join cls rest [r]

/-- C3: for every finite input stream of decoded code points, concatenating
in order all tokens returned by successive `ReadWord` calls until
end-of-input reproduces the original input exactly — no code point is
dropped, duplicated, or reordered, including the final buffered token
emitted at end-of-input and the pushed-back rune after each boundary. -/
theorem c3_token_reconstruction (cls : Classifier) {ε : Type} (src : List Char) :
    (readWords cls (ε := ε) none src []).1.flatten = src :=
  readWords_join cls src []

/-! ## Configuration validation -/

/-- C4: an out-of-domain configuration fails fast with the
invalid-configuration error, independently of the input (so before any of
it is consumed), with no result. -/
theorem c4_invalid_configuration (cls : Classifier) (ip : Char → Bool) (tl : Char → Char)
    {ε : Type} (src : List Char) (fin : Option ε) (seqSize topN : Int)
    (h : seqSize < 1 ∨ topN < 1) :
    ProcessGo cls ip tl src fin seqSize topN = .error .invalidArgument := by
  rcases h with h | h <;> simp [ProcessGo, h]

/-- Witness for C4 at a concrete invalid configuration. -/
theorem c4_invalid_configuration_witness :
    ProcessGo sampleCls sampleIp sampleTl (ε := Unit) "a b".toList none 0 100 =
      .error .invalidArgument :=
  c4_invalid_configuration sampleCls sampleIp sampleTl "a b".toList none 0 100 (Or.inl (by decide))

/-! ## Read errors and end-of-stream -/

/-- C5: a read error other than end-of-stream is propagated by `Process` as
is, with no partial output; end-of-stream is not an error: `Process`
succeeds, and a `ReadWord` call meeting end-of-input with a non-empty
buffer emits that final buffer as a token. -/
theorem c5_input_error (cls : Classifier) (ip : Char → Bool) (tl : Char → Char)
    {ε : Type} (src : List Char) (e : ε) (seqSize topN : Int)
    (hK : 1 ≤ seqSize) (hN : 1 ≤ topN) :
    ProcessGo cls ip tl src (some e) seqSize topN = .error (.ioErr e) ∧
    (∃ res, ProcessGo cls ip tl (ε := ε) src none seqSize topN = .ok res) ∧
    (∀ buf : List Char, buf ≠ [] →
      readWordGo cls (ε := ε) none [] buf = (.ok buf, [], [])) := by
  refine ⟨?_, ?_, ?_⟩
  · simp [ProcessGo, not_lt_of_le hK, not_lt_of_le hN, readWords_some_snd]
  · refine ⟨extractTop
        ((readWords cls (ε := ε) none src []).1.foldl (stepTok ip tl seqSize.toNat)
          initPState).arena topN.toNat
        ((readWords cls (ε := ε) none src []).1.foldl (stepTok ip tl seqSize.toNat)
          initPState).hp, ?_⟩
    simp [ProcessGo, not_lt_of_le hK, not_lt_of_le hN, readWords_none_snd]
  · intro buf hb
    simp [readWordGo, List.isEmpty_iff, hb]

/-- Witness for C5 at a concrete input, error and configuration. -/
theorem c5_input_error_witness :
    ProcessGo sampleCls sampleIp sampleTl "ab cd".toList (some 7) 1 1 = .error (.ioErr 7) ∧
    (∃ res, ProcessGo sampleCls sampleIp sampleTl (ε := Nat) "ab cd".toList none 1 1 = .ok res) ∧
    (∀ buf : List Char, buf ≠ [] →
      readWordGo sampleCls (ε := Nat) none [] buf = (.ok buf, [], [])) :=
  c5_input_error sampleCls sampleIp sampleTl "ab cd".toList 7 1 1 (by decide) (by decide)

/-- C8: the end-of-input lookahead resolves to the `utf8.RuneError`
sentinel, which (for a classifier mapping it to the Other class, as the
Unicode tables do) matches none of the class tests the lookahead rules
consult — not AHLetter, Hebrew letter, Numeric, MidNum, or MidNumLetQ —
and a lookahead at end of a cleanly terminated input never makes the
segmentation pass fail. -/
theorem c8_lookahead_sentinel (cls : Classifier) (h : cls runeError = .otherCl) :
    peekRune [] = runeError ∧
    ahLetter cls (peekRune []) = false ∧
    hebrew cls (peekRune []) = false ∧
    numeric cls (peekRune []) = false ∧
    midnum cls (peekRune []) = false ∧
    midNumLetQ cls (peekRune []) = false ∧
    (∀ (src buf : List Char), (readWords cls (ε := Unit) none src buf).2 = none) := by
  refine ⟨rfl, ?_, ?_, ?_, ?_, ?_, fun src buf => readWords_none_snd cls src buf⟩ <;>
    simp [peekRune, ahLetter, hebrew, numeric, midnum, midNumLetQ, h,
      show (runeError == singleQuote) = false from by decide]

/-! ## Count conservation (C2) -/

/-- A successful association-list lookup comes from a stored pair. -/
theorem lookup_some_mem {α β : Type} [BEq α] {k : α} {v : β} :
    ∀ {ps : List (α × β)}, ps.lookup k = some v → ∃ k', (k', v) ∈ ps
  | (a, b) :: ps, h => by
    by_cases hk : k == a
    · refine ⟨a, ?_⟩
      simp [List.lookup, hk] at h
      simp [h]
    · obtain ⟨k', hm⟩ := @lookup_some_mem _ _ _ _ _ ps (by simpa [List.lookup, hk] using h)
      exact ⟨k', by simp [hm]⟩

theorem sumCounts_append (l : List SeqEntry) (e : SeqEntry) :
    sumCounts (l ++ [e]) = sumCounts l + e.count := by
  simp [sumCounts]

/-- Incrementing one tracked sequence's count adds one to the total. -/
theorem sumCounts_set :
    ∀ (l : List SeqEntry) (i : Nat), i < l.length →
      sumCounts (l.set i
        { (l.getD i default) with count := (l.getD i default).count + 1 }) =
        sumCounts l + 1
  | e :: l, 0, _ => by simp [sumCounts]; omega
  | e :: l, i + 1, h => by
    have := sumCounts_set l i (by simpa using h)
    simp [sumCounts] at this ⊢
    omega

/-- The `Process` loop over tokens is the window/register fold over the
normalized words: the two `continue`s of the loop are exactly the `none`
results of `normalizeWord`. -/
theorem foldl_stepTok (ip : Char → Bool) (tl : Char → Char) (K : Nat) :
    ∀ (toks : List (List Char)) (st : PState),
      toks.foldl (stepTok ip tl K) st = (normWords ip tl toks).foldl (stepWord K) st
  | [], _ => rfl
  | t :: ts, st => by
    cases h : normalizeWord ip tl t with
    | none =>
      simpa [normWords, List.filterMap_cons, h, stepTok] using foldl_stepTok ip tl K ts st
    | some w =>
      simpa [normWords, List.filterMap_cons, h, stepTok] using
        foldl_stepTok ip tl K ts (stepWord K st w)

theorem stepWord_small {K : Nat} {st : PState} {w : List Char}
    (h : st.window.length + 1 < K) :
    stepWord K st w = { st with window := st.window ++ [w] } := by
  simp only [stepWord]
  rw [if_pos (by simpa using h)]

theorem stepWord_hit {K : Nat} {st : PState} {w : List Char} {id : Nat}
    (h : ¬ st.window.length + 1 < K)
    (hcl : st.cache.lookup (seqKey (st.window ++ [w])) = some id) :
    stepWord K st w =
      { window := (st.window ++ [w]).drop 1,
        arena := st.arena.set id
          { (st.arena.getD id default) with count := (st.arena.getD id default).count + 1 },
        cache := st.cache,
        hp := heapFixGo (ltArena (st.arena.set id
          { (st.arena.getD id default) with
              count := (st.arena.getD id default).count + 1 })) 0 st.hp
          (st.hp.indexOf id) } := by
  simp only [stepWord]
  rw [if_neg (by simpa using h), hcl]

theorem stepWord_miss {K : Nat} {st : PState} {w : List Char}
    (h : ¬ st.window.length + 1 < K)
    (hcl : st.cache.lookup (seqKey (st.window ++ [w])) = none) :
    stepWord K st w =
      { window := (st.window ++ [w]).drop 1,
        arena := st.arena ++ [{ words := st.window ++ [w], count := 1 }],
        cache := (seqKey (st.window ++ [w]), st.arena.length) :: st.cache,
        hp := heapPushGo (ltArena (st.arena ++ [{ words := st.window ++ [w], count := 1 }]))
          0 st.hp st.arena.length } := by
  simp only [stepWord]
  rw [if_neg (by simpa using h), hcl]

/-- Main bookkeeping invariant of the `Process` loop: the cache stays
valid, the window stays below `K` words, its length is determined by the
number of words seen, the count sum grows by one per completed window,
and with fewer than `K` words seen nothing is ever registered. -/
theorem stepWord_fold_inv (K : Nat) (hK : 1 ≤ K) :
    ∀ (ws : List (List Char)) (st : PState),
      CacheOK st → st.window.length + 1 ≤ K →
      CacheOK (ws.foldl (stepWord K) st) ∧
      (ws.foldl (stepWord K) st).window.length + 1 ≤ K ∧
      (ws.foldl (stepWord K) st).window.length
        = min (st.window.length + ws.length) (K - 1) ∧
      sumCounts (ws.foldl (stepWord K) st).arena
        = sumCounts st.arena + (st.window.length + ws.length + 1 - K) ∧
      (st.window.length + ws.length < K →
        (ws.foldl (stepWord K) st).arena = st.arena ∧
        (ws.foldl (stepWord K) st).hp = st.hp)
  | [], st => by
    intro hc hw
    refine ⟨hc, hw, ?_, ?_, fun _ => ⟨rfl, rfl⟩⟩ <;> simp <;> omega
  | w :: ws, st => by
    intro hc hw
    rw [List.foldl_cons]
    by_cases hlt : st.window.length + 1 < K
    · rw [stepWord_small hlt]
      have ih := stepWord_fold_inv K hK ws { st with window := st.window ++ [w] }
        (by simpa [CacheOK] using hc) (by simp; omega)
      refine ⟨ih.1, ih.2.1, ?_, ?_, ?_⟩
      · rw [ih.2.2.1]; simp; omega
      · rw [ih.2.2.2.1]; simp; omega
      · intro hv
        simp at hv
        have := ih.2.2.2.2 (by simp; omega)
        simpa using this
    · cases hcl : st.cache.lookup (seqKey (st.window ++ [w])) with
      | some id =>
        have hidlt : id < st.arena.length := by
          obtain ⟨k', hm⟩ := lookup_some_mem hcl
          exact hc _ hm
        rw [stepWord_hit hlt hcl]
        have ih := stepWord_fold_inv K hK ws
          { window := (st.window ++ [w]).drop 1,
            arena := st.arena.set id
              { (st.arena.getD id default) with
                  count := (st.arena.getD id default).count + 1 },
            cache := st.cache,
            hp := heapFixGo (ltArena (st.arena.set id
              { (st.arena.getD id default) with
                  count := (st.arena.getD id default).count + 1 })) 0 st.hp
              (st.hp.indexOf id) }
          (by intro p hp; simpa using hc p hp)
          (by simp; omega)
        refine ⟨ih.1, ih.2.1, ?_, ?_, ?_⟩
        · rw [ih.2.2.1]; simp; omega
        · rw [ih.2.2.2.1]
          have hsum := sumCounts_set st.arena id hidlt
          simp only [hsum]
          simp
          omega
        · intro hv
          simp at hv
          omega
      | none =>
        rw [stepWord_miss hlt hcl]
        have ih := stepWord_fold_inv K hK ws
          { window := (st.window ++ [w]).drop 1,
            arena := st.arena ++ [{ words := st.window ++ [w], count := 1 }],
            cache := (seqKey (st.window ++ [w]), st.arena.length) :: st.cache,
            hp := heapPushGo (ltArena (st.arena ++ [{ words := st.window ++ [w], count := 1 }]))
              0 st.hp st.arena.length }
          (by
            intro p hp
            simp at hp
            rcases hp with hp | hp
            · simp [hp]
            · have := hc p hp; simp; omega)
          (by simp; omega)
        refine ⟨ih.1, ih.2.1, ?_, ?_, ?_⟩
        · rw [ih.2.2.1]; simp; omega
        · rw [ih.2.2.2.1]
          simp [sumCounts_append]
          omega
        · intro hv
          simp at hv
          omega

theorem extractTop_nil (a : List SeqEntry) (n : Nat) : extractTop a n [] = [] := by
  cases n <;> simp [extractTop]

/-- C2: the sum of the `Count` fields over all distinct tracked sequences
is `max (V - K + 1) 0`, for `V` the number of normalized words produced;
in particular, with fewer than `K` normalized words (including empty
input) `Process` succeeds with an empty result. -/
theorem c2_count_conservation (cls : Classifier) (ip : Char → Bool) (tl : Char → Char)
    {ε : Type} (src : List Char) (seqSize : Int) (hK : 1 ≤ seqSize) :
    (sumCounts ((readWords cls (ε := ε) none src []).1.foldl
        (stepTok ip tl seqSize.toNat) initPState).arena : Int)
      = max (((normWords ip tl (readWords cls (ε := ε) none src []).1).length : Int)
          - seqSize + 1) 0 ∧
    (((normWords ip tl (readWords cls (ε := ε) none src []).1).length : Int) < seqSize →
      ∀ topN : Int, 1 ≤ topN →
        ProcessGo cls ip tl (ε := ε) src none seqSize topN = .ok []) := by
  have hK0 : (0 : Int) ≤ seqSize := by omega
  have hKc : (seqSize.toNat : Int) = seqSize := Int.toNat_of_nonneg hK0
  have hK' : 1 ≤ seqSize.toNat := by omega
  have inv := stepWord_fold_inv seqSize.toNat hK'
    (normWords ip tl (readWords cls (ε := ε) none src []).1) initPState
    (by intro p hp; simp [initPState] at hp) (by simp [initPState]; omega)
  rw [foldl_stepTok]
  constructor
  · rw [inv.2.2.2.1]
    simp [initPState, sumCounts]
    omega
  · intro hV topN hN
    have hemp := inv.2.2.2.2 (by simp [initPState]; omega)
    simp only [ProcessGo, not_lt_of_le hK, not_lt_of_le hN]
    rw [if_neg (by simp; try omega)]
    simp only [readWords_none_snd]
    rw [foldl_stepTok, hemp.1, hemp.2]
    simp [initPState, extractTop_nil]

/-- Witness for C2 at a concrete input: `"a b a b"` with `K = 2` has
`V = 4` normalized words and total count `3`. -/
theorem c2_count_conservation_witness :
    (sumCounts ((readWords sampleCls (ε := Unit) none "a b a b".toList []).1.foldl
        (stepTok sampleIp sampleTl (2 : Int).toNat) initPState).arena : Int)
      = max (((normWords sampleIp sampleTl
            (readWords sampleCls (ε := Unit) none "a b a b".toList []).1).length : Int)
          - 2 + 1) 0 ∧
    (((normWords sampleIp sampleTl
          (readWords sampleCls (ε := Unit) none "a b a b".toList []).1).length : Int) < 2 →
      ∀ topN : Int, 1 ≤ topN →
        ProcessGo sampleCls sampleIp sampleTl (ε := Unit) "a b a b".toList none 2 topN =
          .ok []) :=
  c2_count_conservation sampleCls sampleIp sampleTl "a b a b".toList 2 (by decide)

/-! ## Regional-indicator pairing -/

/-- C6: three consecutive regional-indicator code points followed by a
space segment as a two-RI token, then a one-RI token, then the space —
never a single token with all three. -/
theorem c6_regional_indicator_pairs (cls : Classifier) (r1 r2 r3 : Char)
    (h1 : cls r1 = .regionalIndicator) (h2 : cls r2 = .regionalIndicator)
    (h3 : cls r3 = .regionalIndicator)
    (hsp : cls ' ' = .otherCl) (herr : cls runeError = .otherCl)
    (hlit : ∀ c ∈ [r1, r2, r3], c ≠ carriageReturn ∧ c ≠ lineFeed ∧ c ≠ zwj ∧ c ≠ runeError) :
    readWords cls (ε := Unit) none [r1, r2, r3, ' '] [] = ([[r1, r2], [r3], [' ']], none) := by
  obtain ⟨c1, l1, z1, e1⟩ := hlit r1 (by simp)
  obtain ⟨c2, l2, z2, e2⟩ := hlit r2 (by simp)
  obtain ⟨c3, l3, z3, e3⟩ := hlit r3 (by simp)
  simp [readWords, keepRune, wbClassify, lastRunes, firstRetained, getLastRune, peekRune,
    ahLetter, midLetter, midnum, midNumLetQ, numeric, hebrew, katakana, extendNumLet,
    eModifier, eBase, ebg, extendT, formatT, glueAfterZWJ, newline, ri,
    h1, h2, h3, hsp, herr, c1, l1, z1, e1, c2, l2, z2, e2, c3, l3, z3, e3,
    show ' ' ≠ carriageReturn from by decide, show ' ' ≠ lineFeed from by decide,
    show ' ' ≠ zwj from by decide, show ' ' ≠ runeError from by decide]

/-- Witness for C6 at the three concrete regional indicators of the
repository's own test `"🇺🇸🇺 "`. -/
theorem c6_regional_indicator_pairs_witness :
    readWords sampleCls (ε := Unit) none ['🇺', '🇸', '🇺', ' '] [] =
      ([['🇺', '🇸'], ['🇺'], [' ']], none) :=
  c6_regional_indicator_pairs sampleCls '🇺' '🇸' '🇺'
    (by decide) (by decide) (by decide) (by decide) (by decide) (by decide)

/-! ## Rule 4 and the lookback state (C7)

The spec asserts that a code point kept by rule 4 (Extend, Format, or ZWJ)
never updates `lastRune`/`secondToLastRune`.  `wordReader.lastRune` skips
only Extend and Format code points; a kept ZWJ therefore becomes the new
`lastRune` (this is what makes rule WB3c able to fire at all, and the
repository's emoji-ZWJ tests depend on it). -/

/-- C7 counterexample: with the buffer `['a']`, the incoming ZWJ is kept by
rule 4, yet the retained lookback pair changes — `lastRune` becomes the
ZWJ. -/
theorem c7_counterexample :
    wbClassify sampleCls ['a'] zwj 'b' = .wb4 ∧
    keepRune sampleCls ['a'] zwj 'b' = true ∧
    lastRunes sampleCls (['a'] ++ [zwj]) ≠ lastRunes sampleCls ['a'] ∧
    (lastRunes sampleCls (['a'] ++ [zwj])).1 = zwj := by decide

/-- C7 as amended: when rule 4 keeps a code point classified Extend or
Format (other than the U+FFFD scan sentinel), `lastRune` and
`secondToLastRune` are unchanged and only `lastRuneLiteral` becomes the new
code point; when rule 4 keeps a ZWJ not classified Extend/Format, the ZWJ
itself becomes the new `lastRune` (and `lastRuneLiteral`). -/
theorem c7_rule4_lookback (cls : Classifier) (buf : List Char) (r next : Char)
    (hr : wbClassify cls buf r next = .wb4) :
    ((extendT cls r || formatT cls r) = true → r ≠ runeError →
      lastRunes cls (buf ++ [r]) = lastRunes cls buf ∧ getLastRune (buf ++ [r]) = r) ∧
    (r = zwj → (extendT cls r || formatT cls r) = false →
      (lastRunes cls (buf ++ [r])).1 = zwj ∧ getLastRune (buf ++ [r]) = r) := by
  constructor
  · intro hef hne
    refine ⟨?_, by simp [getLastRune]⟩
    simp [lastRunes, firstRetained, List.reverse_append, hef,
      beq_eq_false_iff_ne.mpr hne]
  · intro hz hef
    subst hz
    refine ⟨?_, by simp [getLastRune]⟩
    simp [lastRunes, firstRetained, List.reverse_append, hef,
      show (zwj == runeError) = false from by decide]

/-- Witness for the amended C7 at a concrete Extend code point. -/
theorem c7_rule4_lookback_witness :
    wbClassify sampleCls ['a'] '\u0301' 'b' = .wb4 ∧
    (((extendT sampleCls '\u0301' || formatT sampleCls '\u0301') = true →
        '\u0301' ≠ runeError →
        lastRunes sampleCls (['a'] ++ ['\u0301']) = lastRunes sampleCls ['a'] ∧
        getLastRune (['a'] ++ ['\u0301']) = '\u0301') ∧
      ('\u0301' = zwj → (extendT sampleCls '\u0301' || formatT sampleCls '\u0301') = false →
        (lastRunes sampleCls (['a'] ++ ['\u0301'])).1 = zwj ∧
        getLastRune (['a'] ++ ['\u0301']) = '\u0301')) :=
  ⟨by decide, c7_rule4_lookback sampleCls ['a'] '\u0301' 'b' (by decide)⟩

/-- Witness for C8 at the sample classifier. -/
theorem c8_lookahead_sentinel_witness :
    peekRune [] = runeError ∧
    ahLetter sampleCls (peekRune []) = false ∧
    hebrew sampleCls (peekRune []) = false ∧
    numeric sampleCls (peekRune []) = false ∧
    midnum sampleCls (peekRune []) = false ∧
    midNumLetQ sampleCls (peekRune []) = false ∧
    (∀ (src buf : List Char), (readWords sampleCls (ε := Unit) none src buf).2 = none) :=
  c8_lookahead_sentinel sampleCls (by decide)

/-! ## The whitespace discard list is exact (C10) -/

/-- C10: the whitespace discard matches only the exact fixed list of ten
strings; a token that is a single whitespace code point outside that list —
U+202F NARROW NO-BREAK SPACE, emitted as its own token as in the
repository's segmentation test — is not discarded, is not stripped as
punctuation, and becomes a normalized word that enters windows and is
counted in sequences. -/
theorem c10_isSpace_exact_list :
    (∀ s : List Char, isSpace s = true ↔
      (s = [' '] ∨ s = ['\t'] ∨ s = ['\n'] ∨ s = ['\u000b'] ∨ s = ['\u000c'] ∨
       s = ['\u000d'] ∨ s = ['\u0085'] ∨ s = ['\u00a0'] ∨
       s = ['\u000d', '\u000a'] ∨ s = ['\u000a', '\u000d'])) ∧
    isSpace ['\u202f'] = false ∧
    sampleIp '\u202f' = false ∧
    normalizeWord sampleIp sampleTl ['\u202f'] = some ['\u202f'] ∧
    readWords sampleCls (ε := Unit) none "格\u202f格".toList [] =
      ([['格'], ['\u202f'], ['格']], none) ∧
    ProcessGo sampleCls sampleIp sampleTl (ε := Unit) "格\u202f格".toList none 1 5 =
      .ok [{ words := [['格']], count := 2 }, { words := [['\u202f']], count := 1 }] := by
  refine ⟨?_, by decide, by decide, by decide, by decide, by rfl⟩
  intro s
  simp [isSpace]
  tauto

end NR

namespace NR

section HeapLemmas

variable {α : Type} (lt : α → α → Bool) (dd : α)

theorem lswap_length (l : List α) (i j : Nat) : (lswap l i j dd).length = l.length := by
  simp [lswap]

theorem set_getD_self {l : List α} {i : Nat} (h : i < l.length) :
    l.set i (l.getD i dd) = l := by
  apply List.ext_getElem?
  intro m
  rw [List.getElem?_set]
  split
  · next he =>
    subst he
    simp [List.getD_eq_getElem l dd h, h, List.getElem?_eq_getElem h]
  · rfl

theorem getD_lswap_fst {l : List α} {i j : Nat} (hi : i < l.length) (hj : j < l.length) :
    (lswap l i j dd).getD i dd = l.getD j dd := by
  by_cases h : j = i
  · subst h
    simp [lswap, List.getD_eq_getElem?_getD, List.getElem?_set, hj]
  · simp [lswap, List.getD_eq_getElem?_getD, List.getElem?_set, h, hi, hj]

theorem getD_lswap_snd {l : List α} {i j : Nat} (hj : j < l.length) :
    (lswap l i j dd).getD j dd = l.getD i dd := by
  simp [lswap, List.getD_eq_getElem?_getD, List.getElem?_set, hj]

theorem getD_lswap_other {l : List α} {i j m : Nat} (hmi : m ≠ i) (hmj : m ≠ j) :
    (lswap l i j dd).getD m dd = l.getD m dd := by
  simp [lswap, List.getD_eq_getElem?_getD, List.getElem?_set, Ne.symm hmi, Ne.symm hmj]

theorem mem_of_mem_lswap {l : List α} {i j : Nat} {x : α}
    (hi : i < l.length) (hj : j < l.length) (hx : x ∈ lswap l i j dd) : x ∈ l := by
  rcases List.mem_or_eq_of_mem_set hx with hx | hx
  · rcases List.mem_or_eq_of_mem_set hx with hx | hx
    · exact hx
    · subst hx
      rw [List.getD_eq_getElem l dd hj]
      exact List.getElem_mem _
  · subst hx
    rw [List.getD_eq_getElem l dd hi]
    exact List.getElem_mem _

theorem cons_set_perm (dd : α) :
    ∀ (xs : List α) (m : Nat) (x : α), m < xs.length →
      (xs.getD m dd :: xs.set m x).Perm (x :: xs)
  | y :: ys, 0, x, _ => by
    simpa using List.Perm.swap x y ys
  | y :: ys, m + 1, x, h => by
    have ih := cons_set_perm dd ys m x (by simpa using h)
    refine (List.Perm.swap _ _ _).trans ?_
    exact (ih.cons y).trans (List.Perm.swap _ _ _)

theorem lswap_perm (dd : α) :
    ∀ (l : List α) (i j : Nat), i < l.length → j < l.length → (lswap l i j dd).Perm l
  | l, 0, 0, hi, _ => by
    have : lswap l 0 0 dd = l := by
      unfold lswap
      rw [List.set_set]
      exact set_getD_self dd hi
    rw [this]
  | x :: xs, 0, j + 1, hi, hj => by
    have : lswap (x :: xs) 0 (j + 1) dd = xs.getD j dd :: xs.set j x := rfl
    rw [this]
    exact cons_set_perm dd xs j x (by simpa using hj)
  | x :: xs, i + 1, 0, hi, hj => by
    have h1 : lswap (x :: xs) (i + 1) 0 dd = lswap (x :: xs) 0 (i + 1) dd :=
      List.set_comm _ _ _ (by omega)
    have h2 : lswap (x :: xs) 0 (i + 1) dd = xs.getD i dd :: xs.set i x := rfl
    rw [h1, h2]
    exact cons_set_perm dd xs i x (by simpa using hi)
  | x :: xs, i + 1, j + 1, hi, hj => by
    have : lswap (x :: xs) (i + 1) (j + 1) dd = x :: lswap xs i j dd := rfl
    rw [this]
    exact (lswap_perm dd xs i j (by simpa using hi) (by simpa using hj)).cons x

theorem getD_mem {l : List α} {i : Nat} (h : i < l.length) : l.getD i dd ∈ l := by
  rw [List.getD_eq_getElem l dd h]
  exact List.getElem_mem _

theorem keyed_true {κ : Type} [LinearOrder κ] {k : α → κ} {l : List α} {a b : α}
    (hK : KeyedLt lt k l) (ha : a ∈ l) (hb : b ∈ l) :
    lt a b = true ↔ k a < k b := by
  rw [hK a ha b hb]
  simp

theorem keyed_false {κ : Type} [LinearOrder κ] {k : α → κ} {l : List α} {a b : α}
    (hK : KeyedLt lt k l) (ha : a ∈ l) (hb : b ∈ l) :
    lt a b = false ↔ ¬ k a < k b := by
  rw [hK a ha b hb]
  simp

theorem siftUp_correct {κ : Type} [LinearOrder κ] (k : α → κ) :
    ∀ (fuel : Nat) (l : List α) (j : Nat),
      j < l.length → j + 1 ≤ fuel →
      KeyedLt lt k l → UpInv lt dd l j →
      IsHeap lt dd (siftUp lt dd fuel l j) ∧ (siftUp lt dd fuel l j).Perm l
  | fuel + 1, l, j, hj, hfuel, hK, hInv => by
    rw [siftUp]
    by_cases hstop : ((j - 1) / 2 : Nat) == j || !lt (l.getD j dd) (l.getD ((j - 1) / 2) dd)
    · rw [if_pos hstop]
      refine ⟨?_, List.Perm.refl l⟩
      intro m hm0 hmlen
      rcases Bool.or_eq_true_iff.mp hstop with hij | hnlt
      · -- (j-1)/2 = j, i.e. j = 0: no edge is excepted
        have hj0 : j = 0 := by
          have h' : (j - 1) / 2 = j := by simpa using hij
          omega
        exact hInv.1 m hm0 hmlen (by omega)
      · by_cases hmj : m = j
        · subst hmj
          simpa using hnlt
        · exact hInv.1 m hm0 hmlen hmj
    · rw [if_neg hstop]
      -- the element at j is less than its parent: swap and continue
      simp only [Bool.or_eq_true, not_or, Bool.not_eq_true, Bool.not_eq_true',
        Bool.not_eq_false, beq_iff_eq] at hstop
      obtain ⟨hij', hlt⟩ := hstop
      have hj1 : 0 < j := by omega
      set i := (j - 1) / 2 with hi
      have hilt : i < j := by omega
      have hilen : i < l.length := by omega
      set x := l.getD j dd with hx
      set y := l.getD i dd with hy
      have hxy : k x < k y := (keyed_true lt hK (getD_mem dd hj) (getD_mem dd hilen)).mp hlt
      set l' := lswap l i j dd with hl'
      have hlen' : l'.length = l.length := lswap_length dd l i j
      have hKk : KeyedLt lt k l' := fun a ha b hb =>
        hK a (mem_of_mem_lswap dd hilen hj ha) b (mem_of_mem_lswap dd hilen hj hb)
      have hgi : l'.getD i dd = x := getD_lswap_fst dd hilen hj
      have hgj : l'.getD j dd = y := getD_lswap_snd dd hj
      have hgo : ∀ m, m ≠ i → m ≠ j → l'.getD m dd = l.getD m dd := fun m h1 h2 =>
        getD_lswap_other dd h1 h2
      have hmem : ∀ {t : Nat}, t < l.length → l.getD t dd ∈ l := fun ht => getD_mem dd ht
      have hInv' : UpInv lt dd l' i := by
        constructor
        · intro m hm0 hmlen hmi
          rw [hlen'] at hmlen
          by_cases hmj : m = j
          · -- the new edge (j, i) after the swap
            subst hmj
            have hpm : (m - 1) / 2 = i := hi
            rw [hpm, hgj, hgi]
            exact (keyed_false lt hK (hmem hilen) (hmem hj)).mpr (by
              intro hyx
              exact absurd hxy (not_lt_of_lt hyx))
          · by_cases hpmj : (m - 1) / 2 = j
            · -- children of j keep their grandparent bound (clause 2)
              rw [hpmj, hgj, hgo m hmi hmj]
              exact hInv.2 hj1 m (by omega) hpmj
            · by_cases hpmi : (m - 1) / 2 = i
              · -- siblings under i compare against the promoted x
                rw [hpmi, hgi, hgo m hmi hmj]
                have hold : lt (l.getD m dd) y = false := by
                  have h0 := hInv.1 m hm0 (by omega) hmj
                  rwa [hpmi] at h0
                have : ¬ k (l.getD m dd) < k y :=
                  (keyed_false lt hK (hmem (by omega)) (hmem hilen)).mp hold
                exact (keyed_false lt hK (hmem (by omega)) (hmem hj)).mpr (by
                  intro hc
                  exact this (lt_trans hc hxy))
              · -- untouched edge
                rw [hgo m hmi hmj, hgo _ hpmi hpmj]
                exact hInv.1 m hm0 (by omega) hmj
        · intro hi0 c hclen hpc
          rw [hlen'] at hclen
          have hgp : (i - 1) / 2 ≠ i := by omega
          have hgpj : (i - 1) / 2 ≠ j := by omega
          have hgplen : (i - 1) / 2 < l.length := by omega
          rw [hgo _ hgp hgpj]
          have hedge_i : lt y (l.getD ((i - 1) / 2) dd) = false :=
            hInv.1 i hi0 hilen (by omega)
          by_cases hcj : c = j
          · subst hcj
            rw [hgj]
            exact hedge_i
          · have hci : c ≠ i := by omega
            rw [hgo c hci hcj]
            have hold : lt (l.getD c dd) y = false := by
              have h0 := hInv.1 c (by omega) (by omega) hcj
              rwa [hpc] at h0
            have h1 : ¬ k (l.getD c dd) < k y :=
              (keyed_false lt hK (hmem (by omega)) (hmem hilen)).mp hold
            have h2 : ¬ k y < k (l.getD ((i - 1) / 2) dd) :=
              (keyed_false lt hK (hmem hilen) (hmem hgplen)).mp hedge_i
            exact (keyed_false lt hK (hmem (by omega)) (hmem hgplen)).mpr (by
              intro hc
              rcases lt_or_ge (k (l.getD c dd)) (k y) with h | h
              · exact h1 h
              · exact h2 (lt_of_le_of_lt h hc))
      have ih := siftUp_correct k fuel l' i (by omega) (by omega) hKk hInv'
      exact ⟨ih.1, ih.2.trans (lswap_perm dd l i j hilen hj)⟩

theorem childSel_spec {κ : Type} [LinearOrder κ] (k : α → κ) (l : List α) (i n : Nat)
    (hn : n ≤ l.length) (hj1 : 2 * i + 1 < n) (hK : KeyedLt lt k l) :
    (childSel lt dd l i n - 1) / 2 = i ∧
    2 * i + 1 ≤ childSel lt dd l i n ∧
    childSel lt dd l i n < n ∧
    (∀ c, 0 < c → c < n → (c - 1) / 2 = i → c ≠ childSel lt dd l i n →
      lt (l.getD c dd) (l.getD (childSel lt dd l i n) dd) = false) := by
  unfold childSel
  split
  · next hb =>
    obtain ⟨hb1, hb2⟩ := (Bool.and_eq_true _ _).mp hb
    have hw : 2 * i + 1 + 1 < n := by simpa using hb1
    refine ⟨by omega, by omega, by omega, ?_⟩
    intro c hc0 hcn hcp hcj
    have hc1 : c = 2 * i + 1 := by omega
    subst hc1
    have h1 : k (l.getD (2 * i + 1 + 1) dd) < k (l.getD (2 * i + 1) dd) :=
      (keyed_true lt hK (getD_mem dd (by omega)) (getD_mem dd (by omega))).mp hb2
    exact (keyed_false lt hK (getD_mem (i := 2 * i + 1) dd (by omega))
        (getD_mem (i := 2 * i + 1 + 1) dd (by omega))).mpr
      (fun hc => absurd h1 (not_lt_of_lt hc))
  · next hb =>
    refine ⟨by omega, by omega, hj1, ?_⟩
    intro c hc0 hcn hcp hcj
    have hc2 : c = 2 * i + 1 + 1 := by omega
    subst hc2
    have hw : 2 * i + 1 + 1 < n := by omega
    rw [Bool.and_eq_true] at hb
    push_neg at hb
    have := hb (by simpa using hw)
    simpa using this

theorem siftDown_correct {κ : Type} [LinearOrder κ] (k : α → κ) :
    ∀ (fuel : Nat) (l : List α) (i n : Nat),
      n ≤ l.length → i < n → n ≤ fuel + i →
      KeyedLt lt k l → DownInv lt dd l n i →
      IsHeapN lt dd (siftDown lt dd fuel l i n).1 n ∧
      (siftDown lt dd fuel l i n).1.Perm l ∧
      (siftDown lt dd fuel l i n).1.length = l.length ∧
      (∀ m, n ≤ m → (siftDown lt dd fuel l i n).1.getD m dd = l.getD m dd)
  | 0, l, i, n, hn, hin, hfuel, hK, hInv => by omega
  | fuel + 1, l, i, n, hn, hin, hfuel, hK, hInv => by
    rw [siftDown]
    by_cases hj1 : 2 * i + 1 < n
    · rw [if_pos hj1]
      obtain ⟨hjc, hjlow, hjn, hsib⟩ := childSel_spec lt dd k l i n hn hj1 hK
      set j := childSel lt dd l i n with hjdef
      have hji : i < j := by omega
      have hmem : ∀ {t : Nat}, t < l.length → l.getD t dd ∈ l := fun ht => getD_mem dd ht
      by_cases hlt : lt (l.getD j dd) (l.getD i dd) = true
      · rw [if_pos hlt]
        have hjlen : j < l.length := by omega
        have hilen : i < l.length := by omega
        set x := l.getD j dd with hx
        set y := l.getD i dd with hy
        have hxy : k x < k y := (keyed_true lt hK (hmem hjlen) (hmem hilen)).mp hlt
        set l' := lswap l i j dd with hl'
        have hlen' : l'.length = l.length := lswap_length dd l i j
        have hKk : KeyedLt lt k l' := fun a ha b hb =>
          hK a (mem_of_mem_lswap dd hilen hjlen ha) b (mem_of_mem_lswap dd hilen hjlen hb)
        have hgi : l'.getD i dd = x := getD_lswap_fst dd hilen hjlen
        have hgj : l'.getD j dd = y := getD_lswap_snd dd hjlen
        have hgo : ∀ m, m ≠ i → m ≠ j → l'.getD m dd = l.getD m dd := fun m h1 h2 =>
          getD_lswap_other dd h1 h2
        have hInv' : DownInv lt dd l' n j := by
          constructor
          · intro m hm0 hmn hpmj
            by_cases hmi : m = i
            · subst hmi
              have hpmne : (m - 1) / 2 ≠ m := by omega
              have hpmnej : (m - 1) / 2 ≠ j := by omega
              rw [hgi, hgo _ hpmne hpmnej]
              exact hInv.2 hm0 j hjn hjc
            · by_cases hmj : m = j
              · subst hmj
                rw [hjc, hgj, hgi]
                exact (keyed_false lt hK (hmem hilen) (hmem hjlen)).mpr
                  (fun hc => absurd hxy (not_lt_of_lt hc))
              · rw [hgo m hmi hmj]
                by_cases hpmi : (m - 1) / 2 = i
                · rw [hpmi, hgi]
                  exact hsib m hm0 hmn hpmi hmj
                · rw [hgo _ hpmi hpmj]
                  exact hInv.1 m hm0 hmn hpmi
          · intro _ c hcn hcp
            have hcj : c ≠ j := by omega
            have hci : c ≠ i := by omega
            rw [hjc, hgi, hgo c hci hcj]
            have h0 := hInv.1 c (by omega) hcn (by omega)
            rwa [hcp] at h0
        have ih := siftDown_correct k fuel l' j n (by omega) hjn (by omega) hKk hInv'
        refine ⟨ih.1, ih.2.1.trans (lswap_perm dd l i j hilen hjlen), ?_, ?_⟩
        · rw [ih.2.2.1, hlen']
        · intro m hm
          rw [ih.2.2.2 m hm, hgo m (by omega) (by omega)]
      · rw [if_neg hlt]
        rw [Bool.not_eq_true] at hlt
        refine ⟨?_, List.Perm.refl l, rfl, fun m _ => rfl⟩
        intro m hm0 hmn
        by_cases hpmi : (m - 1) / 2 = i
        · rw [hpmi]
          by_cases hmj : m = j
          · subst hmj
            exact hlt
          · have h1 := hsib m hm0 hmn hpmi hmj
            have h2 : ¬ k (l.getD m dd) < k (l.getD j dd) :=
              (keyed_false lt hK (hmem (by omega)) (hmem (by omega))).mp h1
            have h3 : ¬ k (l.getD j dd) < k (l.getD i dd) :=
              (keyed_false lt hK (hmem (by omega)) (hmem (by omega))).mp hlt
            exact (keyed_false lt hK (hmem (by omega)) (hmem (by omega))).mpr (by
              intro hc
              rcases lt_or_ge (k (l.getD m dd)) (k (l.getD j dd)) with h | h
              · exact h2 h
              · exact h3 (lt_of_le_of_lt h hc))
        · exact hInv.1 m hm0 hmn hpmi
    · rw [if_neg hj1]
      refine ⟨?_, List.Perm.refl l, rfl, fun m _ => rfl⟩
      intro m hm0 hmn
      by_cases hpmi : (m - 1) / 2 = i
      · exact absurd hmn (by omega)
      · exact hInv.1 m hm0 hmn hpmi


theorem rootMin {κ : Type} [LinearOrder κ] {k : α → κ} {l : List α} {n : Nat}
    (hn : n ≤ l.length) (hH : IsHeapN lt dd l n) (hK : KeyedLt lt k l) :
    ∀ j, j < n → lt (l.getD j dd) (l.getD 0 dd) = false
  | 0, hj => (keyed_false lt hK (getD_mem dd (by omega)) (getD_mem dd (by omega))).mpr
      (lt_irrefl _)
  | j + 1, hj => by
    have hpar := hH (j + 1) (by omega) hj
    have hih := rootMin hn hH hK ((j + 1 - 1) / 2) (by omega)
    have h1 : ¬ k (l.getD (j + 1) dd) < k (l.getD ((j + 1 - 1) / 2) dd) :=
      (keyed_false lt hK (getD_mem dd (by omega)) (getD_mem dd (by omega))).mp hpar
    have h2 : ¬ k (l.getD ((j + 1 - 1) / 2) dd) < k (l.getD 0 dd) :=
      (keyed_false lt hK (getD_mem dd (by omega)) (getD_mem dd (by omega))).mp hih
    exact (keyed_false lt hK (getD_mem dd (by omega)) (getD_mem dd (by omega))).mpr (by
      intro hc
      rcases lt_or_ge (k (l.getD (j + 1) dd)) (k (l.getD ((j + 1 - 1) / 2) dd)) with h | h
      · exact h1 h
      · exact h2 (lt_of_le_of_lt h hc))

theorem heapPushGo_correct {κ : Type} [LinearOrder κ] (k : α → κ) {l : List α} {x : α}
    (hH : IsHeap lt dd l) (hK : KeyedLt lt k (l ++ [x])) :
    IsHeap lt dd (heapPushGo lt dd l x) ∧ (heapPushGo lt dd l x).Perm (l ++ [x]) := by
  have hlen : (l ++ [x]).length = l.length + 1 := by simp
  have hInv : UpInv lt dd (l ++ [x]) l.length := by
    constructor
    · intro m hm0 hmlen hmj
      rw [hlen] at hmlen
      have hm : m < l.length := by omega
      have hpm : (m - 1) / 2 < l.length := by omega
      rw [List.getD_append _ _ _ _ hm, List.getD_append _ _ _ _ hpm]
      exact hH m hm0 hm
    · intro hj0 c hclen hcp
      rw [hlen] at hclen
      omega
  have := siftUp_correct lt dd k (l.length + 1) (l ++ [x]) l.length
    (by simp) (by omega) hK hInv
  exact ⟨this.1, this.2⟩

theorem childSel_range (l : List α) (i n : Nat) (h : 2 * i + 1 < n) :
    (childSel lt dd l i n - 1) / 2 = i ∧
    2 * i + 1 ≤ childSel lt dd l i n ∧ childSel lt dd l i n < n := by
  unfold childSel
  split
  · next hb =>
    obtain ⟨hb1, _⟩ := (Bool.and_eq_true _ _).mp hb
    have hw : 2 * i + 1 + 1 < n := by simpa using hb1
    exact ⟨by omega, by omega, by omega⟩
  · exact ⟨by omega, by omega, h⟩

theorem siftDown_nomove (fuel : Nat) (l : List α) (i n : Nat)
    (hch : ∀ c, 0 < c → c < n → (c - 1) / 2 = i → lt (l.getD c dd) (l.getD i dd) = false) :
    siftDown lt dd fuel l i n = (l, i) := by
  cases fuel with
  | zero => rfl
  | succ fuel =>
    rw [siftDown]
    by_cases hj1 : 2 * i + 1 < n
    · rw [if_pos hj1]
      obtain ⟨hc1, hc2, hc3⟩ := childSel_range lt dd l i n hj1
      rw [if_neg (by
        rw [hch (childSel lt dd l i n) (by omega) hc3 hc1]
        simp)]
    · rw [if_neg hj1]

theorem heapFixGo_correct {κ : Type} [LinearOrder κ] (k : α → κ) {l : List α} {i : Nat}
    (hi : i < l.length) (hK : KeyedLt lt k l)
    (hInv1 : ∀ m, 0 < m → m < l.length → m ≠ i →
      lt (l.getD m dd) (l.getD ((m - 1) / 2) dd) = false)
    (hInv2 : 0 < i → ∀ c, 0 < c → c < l.length → (c - 1) / 2 = i →
      lt (l.getD c dd) (l.getD ((i - 1) / 2) dd) = false) :
    IsHeap lt dd (heapFixGo lt dd l i) ∧ (heapFixGo lt dd l i).Perm l := by
  have hch : ∀ c, 0 < c → c < l.length → (c - 1) / 2 = i →
      lt (l.getD c dd) (l.getD i dd) = false := by
    intro c hc0 hcl hcp
    have h0 := hInv1 c hc0 hcl (by omega)
    rwa [hcp] at h0
  have hnm := siftDown_nomove lt dd l.length l i l.length hch
  rw [heapFixGo, hnm]
  simp only [lt_irrefl, if_false]
  have := siftUp_correct lt dd k (i + 1) l i hi (by omega) hK ⟨hInv1, fun hj0 c hcl hcp =>
    hInv2 hj0 c (by omega) hcl hcp⟩
  exact this


theorem getD_take {l : List α} {n j : Nat} (hj : j < n) :
    (l.take n).getD j dd = l.getD j dd := by
  simp [List.getD_eq_getElem?_getD, List.getElem?_take, hj]

theorem heapPopGo_correct {κ : Type} [LinearOrder κ] (k : α → κ) {l : List α}
    (hne : l ≠ []) (hH : IsHeap lt dd l) (hK : KeyedLt lt k l) :
    l.Perm ((heapPopGo lt dd l).1 :: (heapPopGo lt dd l).2) ∧
    IsHeap lt dd (heapPopGo lt dd l).2 ∧
    (heapPopGo lt dd l).2.length = l.length - 1 ∧
    (heapPopGo lt dd l).1 ∈ l ∧
    (∀ y ∈ l, lt y (heapPopGo lt dd l).1 = false) := by
  have hlen0 : 0 < l.length := List.length_pos.mpr hne
  have hrm : ∀ y ∈ l, lt y (l.getD 0 dd) = false := by
    intro y hy
    obtain ⟨t, ht, rfl⟩ := List.getElem_of_mem hy
    have := rootMin lt dd (le_refl l.length) hH hK t ht
    rwa [List.getD_eq_getElem l dd ht] at this
  rcases Nat.lt_or_ge l.length 2 with h1 | h1
  · -- singleton heap
    obtain ⟨a, rfl⟩ : ∃ a, l = [a] := by
      cases l with
      | nil => simp at hlen0
      | cons a t =>
        cases t with
        | nil => exact ⟨a, rfl⟩
        | cons b t =>
          exact absurd h1 (by simp)
    refine ⟨by simp [heapPopGo, lswap, siftDown], ?_, by simp [heapPopGo], by simp [heapPopGo, lswap, siftDown], ?_⟩
    · have h2 : (heapPopGo lt dd [a]).2 = [] := rfl
      rw [IsHeap, h2]
      intro j hj0 hjlen
      simp at hjlen
    · intro y hy
      simp at hy
      subst hy
      simpa [heapPopGo, lswap, siftDown] using hrm y (by simp)
  · -- at least two elements
    set n := l.length - 1 with hn
    have hnpos : 0 < n := by omega
    have hnlen : n < l.length := by omega
    set l1 := lswap l 0 n dd with hl1
    have hlen1 : l1.length = l.length := lswap_length dd l 0 n
    have hK1 : KeyedLt lt k l1 := fun a ha b hb =>
      hK a (mem_of_mem_lswap dd (by omega) hnlen ha) b (mem_of_mem_lswap dd (by omega) hnlen hb)
    have hInv : DownInv lt dd l1 n 0 := by
      constructor
      · intro m hm0 hmn hpm
        have hm1 : m ≠ 0 := by omega
        have hmne : m ≠ n := by omega
        have hpm0 : (m - 1) / 2 ≠ 0 := hpm
        have hpmn : (m - 1) / 2 ≠ n := by omega
        rw [getD_lswap_other dd hm1 hmne, getD_lswap_other dd hpm0 hpmn]
        exact hH m hm0 (by omega)
      · intro h0
        omega
    have hd := siftDown_correct lt dd k n l1 0 n (by omega) hnpos (by omega) hK1 hInv
    set p := siftDown lt dd n l1 0 n with hp
    have hplen : p.1.length = l.length := by rw [hd.2.2.1, hlen1]
    have hgn : p.1.getD n dd = l.getD 0 dd := by
      rw [hd.2.2.2 n (le_refl n), getD_lswap_snd dd hnlen]
    have hdecomp : p.1 = p.1.take n ++ [p.1.getD n dd] := by
      have h2 : p.1.drop n = [p.1.getD n dd] := by
        rw [List.drop_eq_getElem_cons (by omega)]
        have : p.1.drop (n + 1) = [] := by
          apply List.drop_eq_nil_of_le
          omega
        rw [this, List.getD_eq_getElem p.1 dd (by omega)]
      calc p.1 = p.1.take n ++ p.1.drop n := (List.take_append_drop n p.1).symm
        _ = p.1.take n ++ [p.1.getD n dd] := by rw [h2]
    have hperm : l.Perm (p.1.getD n dd :: p.1.take n) := by
      have h3 : p.1.Perm l := hd.2.1.trans (lswap_perm dd l 0 n (by omega) hnlen)
      have h4 : l.Perm p.1 := h3.symm
      refine h4.trans ?_
      conv_lhs => rw [hdecomp]
      exact List.perm_append_comm
    have hresult : heapPopGo lt dd l = (p.1.getD n dd, p.1.take n) := by
      simp only [heapPopGo, ← hn, ← hl1, ← hp]
    rw [hresult]
    refine ⟨hperm, ?_, ?_, ?_, ?_⟩
    · intro j hj0 hjlen
      have hjn : j < n := by
        have hb : (p.1.getD n dd, p.1.take n).2.length = (p.1.take n).length := rfl
        have hc : (p.1.take n).length = n := by
          rw [List.length_take]
          omega
        omega
      rw [getD_take dd hjn, getD_take dd (by omega : (j - 1) / 2 < n)]
      exact hd.1 j hj0 hjn
    · rw [List.length_take]
      omega
    · rw [hgn]
      exact getD_mem dd hlen0
    · intro y hy
      rw [hgn]
      exact hrm y hy

end HeapLemmas

theorem cons_lt_cons_iff {β : Type} [LinearOrder β] (a b : β) (as bs : List β) :
    (a :: as) < (b :: bs) ↔ a < b ∨ (a = b ∧ as < bs) := by
  constructor
  · intro h
    cases h with
    | cons h => exact Or.inr ⟨rfl, h⟩
    | rel h => exact Or.inl h
  · rintro (h | ⟨rfl, h⟩)
    · exact List.Lex.rel h
    · exact List.Lex.cons h

theorem strLess_eq_decide : ∀ a b : List Char, strLess a b = decide (a < b)
  | [], [] => by decide
  | [], b :: bs => (decide_eq_true (List.nil_lt_cons b bs)).symm
  | a :: as, [] => by
    rw [strLess]
    exact (decide_eq_false (fun h => by cases h)).symm
  | a :: as, b :: bs => by
    rw [strLess]
    by_cases hab : a = b
    · subst hab
      rw [if_neg (by simp), strLess_eq_decide as bs]
      apply decide_eq_decide.mpr
      rw [cons_lt_cons_iff]
      simp
    · rw [if_pos hab]
      apply decide_eq_decide.mpr
      rw [cons_lt_cons_iff]
      simp [hab]

theorem wordsLess_eq_decide : ∀ a b : List (List Char), a.length = b.length →
    wordsLess a b = decide (a < b)
  | [], [], _ => by decide
  | [], b :: bs, h => by simp at h
  | a :: as, [], h => by simp at h
  | a :: as, b :: bs, h => by
    rw [wordsLess]
    by_cases hab : a = b
    · subst hab
      rw [if_neg (by simp), wordsLess_eq_decide as bs (by simpa using h)]
      apply decide_eq_decide.mpr
      rw [cons_lt_cons_iff]
      simp
    · rw [if_pos hab]
      rw [strLess_eq_decide]
      apply decide_eq_decide.mpr
      rw [cons_lt_cons_iff]
      simp [hab]

theorem seqLess_eq_decide (a b : SeqEntry) (h : a.words.length = b.words.length) :
    seqLess a b = decide (seqRank a < seqRank b) := by
  have hiff : seqRank a < seqRank b ↔
      (b.count < a.count ∨ (a.count = b.count ∧ a.words < b.words)) := by
    rw [seqRank, seqRank, Prod.Lex.lt_iff]
    constructor
    · rintro (h1 | ⟨h1, h2⟩)
      · exact Or.inl (by simpa using h1)
      · exact Or.inr ⟨by simpa using h1, h2⟩
    · rintro (h1 | ⟨h1, h2⟩)
      · exact Or.inl (by simpa using h1)
      · exact Or.inr ⟨by simpa using h1, h2⟩
  rw [seqLess]
  by_cases hc : a.count = b.count
  · rw [if_neg (by simpa using hc), wordsLess_eq_decide a.words b.words h]
    apply decide_eq_decide.mpr
    rw [hiff]
    simp [hc]
  · rw [if_pos (by simpa using hc)]
    have : (b.count < a.count) ↔ (seqRank a < seqRank b) := by
      rw [hiff]
      simp [hc]
    apply decide_eq_decide.mpr
    exact this

theorem extractTop_chain (arena : List SeqEntry) :
    ∀ (tn : Nat) (hp : List Nat),
      IsHeap (ltArena arena) 0 hp →
      KeyedLt (ltArena arena) (rankOf arena) hp →
      (∀ a ∈ hp, ∀ b ∈ hp, rankOf arena a = rankOf arena b → a = b) →
      hp.Nodup →
      List.Chain' (fun x y => seqLess x y = true) (extractTop arena tn hp)
  | 0, hp, _, _, _, _ => by simp [extractTop]
  | tn + 1, [], _, _, _, _ => by simp [extractTop]
  | tn + 1, h :: t, hH, hK, hInj, hNd => by
    set hp := h :: t with hhp
    have hne : hp ≠ [] := by simp [hhp]
    obtain ⟨hperm, hH2, hlen2, hmem1, hmin⟩ :=
      heapPopGo_correct (ltArena arena) 0 (rankOf arena) hne hH hK
    set p := heapPopGo (ltArena arena) 0 hp with hp2
    have hsub : ∀ y ∈ p.2, y ∈ hp := fun y hy => hperm.symm.subset (by simp [hy])
    have hK2 : KeyedLt (ltArena arena) (rankOf arena) p.2 := fun a ha b hb =>
      hK a (hsub a ha) b (hsub b hb)
    have hInj2 : ∀ a ∈ p.2, ∀ b ∈ p.2, rankOf arena a = rankOf arena b → a = b :=
      fun a ha b hb => hInj a (hsub a ha) b (hsub b hb)
    have hNd2 : p.2.Nodup := by
      have := hperm.nodup_iff.mp hNd
      exact (List.nodup_cons.mp this).2
    have hnotmem : p.1 ∉ p.2 := by
      have := hperm.nodup_iff.mp hNd
      exact (List.nodup_cons.mp this).1
    have ih := extractTop_chain arena tn p.2 hH2 hK2 hInj2 hNd2
    have hstep : extractTop arena (tn + 1) hp =
        arena.getD p.1 default :: extractTop arena tn p.2 := by
      rw [hhp, extractTop]
    rw [hstep]
    rw [List.chain'_cons']
    refine ⟨?_, ih⟩
    intro e he
    -- e is the head of the recursively extracted list: the root of p.2
    have : ∃ q1, e = arena.getD q1 default ∧ q1 ∈ p.2 := by
      cases tn with
      | zero => simp [extractTop] at he
      | succ tn' =>
        cases hpp : p.2 with
        | nil => rw [hpp] at he; simp [extractTop] at he
        | cons h2 t2 =>
          rw [hpp, extractTop, List.head?_cons, Option.mem_some_iff] at he
          refine ⟨(heapPopGo (ltArena arena) 0 (h2 :: t2)).1, he.symm, ?_⟩
          have hH3 : IsHeap (ltArena arena) 0 (h2 :: t2) := by rw [← hpp]; exact hH2
          have hK3 : KeyedLt (ltArena arena) (rankOf arena) (h2 :: t2) := by
            rw [← hpp]; exact hK2
          have hq := heapPopGo_correct (ltArena arena) 0 (rankOf arena)
            (by simp) hH3 hK3
          exact hq.2.2.2.1
    obtain ⟨q1, rfl, hq1⟩ := this
    -- seqLess (entry p.1) (entry q1) holds: p.1 was the minimum, q1 ≠ p.1
    have hq1hp : q1 ∈ hp := hsub q1 hq1
    have hne2 : q1 ≠ p.1 := fun h => hnotmem (h ▸ hq1)
    have hmin2 : ltArena arena q1 p.1 = false := hmin q1 hq1hp
    have h1 : ¬ rankOf arena q1 < rankOf arena p.1 := by
      have := hK q1 hq1hp p.1 hmem1
      rw [this] at hmin2
      simpa using hmin2
    have h2 : rankOf arena q1 ≠ rankOf arena p.1 := fun h => hne2 (hInj q1 hq1hp p.1 hmem1 h)
    have h3 : rankOf arena p.1 < rankOf arena q1 := by
      rcases lt_trichotomy (rankOf arena p.1) (rankOf arena q1) with h | h | h
      · exact h
      · exact absurd h.symm h2
      · exact absurd h h1
    show seqLess (arena.getD p.1 default) (arena.getD q1 default) = true
    have := hK p.1 hmem1 q1 hq1hp
    rw [show ltArena arena p.1 q1 = seqLess (arena.getD p.1 default) (arena.getD q1 default)
      from rfl] at this
    rw [this]
    simpa [rankOf] using h3

theorem lookup_none_not_mem {β : Type} {kk : List Char} {ps : List (List Char × β)}
    (h : ps.lookup kk = none) : ∀ v, (kk, v) ∉ ps := by
  intro v hv
  induction ps with
  | nil => simp at hv
  | cons p ps ih =>
    cases hk : (kk == p.1) with
    | true =>
      rw [List.lookup, hk] at h
      simp at h
    | false =>
      rw [List.lookup, hk] at h
      rcases List.mem_cons.mp hv with hv | hv
      · subst hv
        simp at hk
      · exact ih h hv

theorem procInv_keyedLt {K : Nat} {st : PState} (hInv : ProcInv K st) :
    KeyedLt (ltArena st.arena) (rankOf st.arena) st.hp := by
  intro a ha b hb
  have ha' : a < st.arena.length := by
    have := hInv.2.2.2.2.2.1.subset ha
    simpa using this
  have hb' : b < st.arena.length := by
    have := hInv.2.2.2.2.2.1.subset hb
    simpa using this
  have hwa : (st.arena.getD a default).words.length = K :=
    hInv.2.2.2.1 _ (getD_mem default ha')
  have hwb : (st.arena.getD b default).words.length = K :=
    hInv.2.2.2.1 _ (getD_mem default hb')
  exact seqLess_eq_decide _ _ (by rw [hwa, hwb])

theorem procInv_rankInj {K : Nat} {st : PState} (hInv : ProcInv K st) :
    ∀ a ∈ st.hp, ∀ b ∈ st.hp, rankOf st.arena a = rankOf st.arena b → a = b := by
  intro a ha b hb hr
  have ha' : a < st.arena.length := by
    have := hInv.2.2.2.2.2.1.subset ha
    simpa using this
  have hb' : b < st.arena.length := by
    have := hInv.2.2.2.2.2.1.subset hb
    simpa using this
  by_contra hne
  have hwords : (st.arena.getD a default).words = (st.arena.getD b default).words := by
    have : (OrderDual.toDual (st.arena.getD a default).count,
        (st.arena.getD a default).words) =
        (OrderDual.toDual (st.arena.getD b default).count,
        (st.arena.getD b default).words) := by
      have := hr
      rw [rankOf, rankOf, seqRank, seqRank] at this
      exact toLex.injective this
    exact (Prod.mk.injEq _ _ _ _).mp this |>.2
  exact hInv.2.2.2.2.1 a b ha' hb' hne hwords

theorem procInv_nodup {K : Nat} {st : PState} (hInv : ProcInv K st) : st.hp.Nodup :=
  hInv.2.2.2.2.2.1.nodup_iff.mpr (List.nodup_range _)

theorem rank_set_lt {arena : List SeqEntry} {id : Nat} (hid : id < arena.length) :
    rankOf (arena.set id
      { (arena.getD id default) with count := (arena.getD id default).count + 1 }) id
      < rankOf arena id := by
  have hset : (arena.set id
      { (arena.getD id default) with count := (arena.getD id default).count + 1 }).getD
        id default =
      { (arena.getD id default) with count := (arena.getD id default).count + 1 } := by
    rw [List.getD_eq_getElem?_getD, List.getElem?_set_self hid, Option.getD_some]
  rw [rankOf, rankOf, hset, seqRank, seqRank, Prod.Lex.lt_iff]
  left
  show OrderDual.toDual ((arena.getD id default).count + 1)
    < OrderDual.toDual (arena.getD id default).count
  rw [OrderDual.toDual_lt_toDual]
  omega

theorem rank_set_other {arena : List SeqEntry} {id a : Nat} (e : SeqEntry) (h : a ≠ id) :
    rankOf (arena.set id e) a = rankOf arena a := by
  rw [rankOf, rankOf, List.getD_eq_getElem?_getD, List.getElem?_set_ne (fun hh => h hh.symm),
    ← List.getD_eq_getElem?_getD]

theorem ltArena_set_other {arena : List SeqEntry} {id a b : Nat} (e : SeqEntry)
    (ha : a ≠ id) (hb : b ≠ id) :
    ltArena (arena.set id e) a b = ltArena arena a b := by
  rw [ltArena, ltArena, List.getD_eq_getElem?_getD,
    List.getElem?_set_ne (fun hh => ha hh.symm), ← List.getD_eq_getElem?_getD]
  rw [show (arena.set id e).getD b default = arena.getD b default from by
    rw [List.getD_eq_getElem?_getD, List.getElem?_set_ne (fun hh => hb hh.symm),
      ← List.getD_eq_getElem?_getD]]

theorem ltArena_append {arena : List SeqEntry} (e : SeqEntry) {a b : Nat}
    (ha : a < arena.length) (hb : b < arena.length) :
    ltArena (arena ++ [e]) a b = ltArena arena a b := by
  rw [ltArena, ltArena, List.getD_append _ _ _ _ ha, List.getD_append _ _ _ _ hb]

theorem getD_append_self {arena : List SeqEntry} (e : SeqEntry) :
    (arena ++ [e]).getD arena.length default = e := by
  rw [List.getD_eq_getElem?_getD, List.getElem?_concat_length]
  rfl

theorem rank_append_other {arena : List SeqEntry} (e : SeqEntry) {a : Nat}
    (ha : a < arena.length) :
    rankOf (arena ++ [e]) a = rankOf arena a := by
  rw [rankOf, rankOf, List.getD_append _ _ _ _ ha]

theorem getD_set_self {arena : List SeqEntry} {id : Nat} (e : SeqEntry)
    (h : id < arena.length) : (arena.set id e).getD id default = e := by
  rw [List.getD_eq_getElem?_getD, List.getElem?_set_self h, Option.getD_some]

theorem getD_set_ne {arena : List SeqEntry} {id a : Nat} (e : SeqEntry) (h : a ≠ id) :
    (arena.set id e).getD a default = arena.getD a default := by
  rw [List.getD_eq_getElem?_getD, List.getElem?_set_ne (fun hh => h hh.symm),
    ← List.getD_eq_getElem?_getD]

theorem stepWord_procInv {K : Nat} (st : PState) (w : List Char)
    (hInv : ProcInv K st) : ProcInv K (stepWord K st w) := by
  by_cases hlt : st.window.length + 1 < K
  · rw [stepWord_small hlt]
    obtain ⟨h1, h2, h3, h4, h5, h6, h7⟩ := hInv
    exact ⟨by simp; omega, h2, h3, h4, h5, h6, h7⟩
  · have hwfull : st.window.length + 1 = K := by
      have := hInv.1
      omega
    have hNd := procInv_nodup hInv
    have hKold := procInv_keyedLt hInv
    obtain ⟨hWin, hCache, hComp, hLens, hDist, hPerm, hHeap⟩ := hInv
    have hmemlt : ∀ a ∈ st.hp, a < st.arena.length := by
      intro a ha
      have := hPerm.subset ha
      simpa using this
    have hseqlen : (st.window ++ [w]).length = K := by simp; omega
    cases hcl : st.cache.lookup (seqKey (st.window ++ [w])) with
    | some id =>
      have hidlt : id < st.arena.length := by
        obtain ⟨k', hm⟩ := lookup_some_mem hcl
        exact hCache _ hm
      rw [stepWord_hit hlt hcl]
      have hidmem : id ∈ st.hp := by
        apply hPerm.symm.subset
        simp [hidlt]
      have hposlt : st.hp.indexOf id < st.hp.length := List.indexOf_lt_length.mpr hidmem
      have hgetpos : st.hp.getD (st.hp.indexOf id) 0 = id := by
        rw [List.getD_eq_getElem st.hp 0 hposlt]
        exact List.getElem_indexOf hposlt
      have hval_ne : ∀ m, m < st.hp.length → m ≠ st.hp.indexOf id →
          st.hp.getD m 0 ≠ id := by
        intro m hm hmp heq
        have hh : st.hp[m] = st.hp[st.hp.indexOf id] := by
          rw [← List.getD_eq_getElem st.hp 0 hm, ← List.getD_eq_getElem st.hp 0 hposlt,
            heq, hgetpos]
        exact hmp ((hNd.getElem_inj_iff).mp hh)
      -- abbreviations stated as equalities so rewriting stays syntactic
      have hwords_eq : ∀ a, ((st.arena.set id
          { (st.arena.getD id default) with
              count := (st.arena.getD id default).count + 1 }).getD a default).words =
          (st.arena.getD a default).words := by
        intro a
        by_cases ha : a = id
        · subst ha
          rw [getD_set_self _ hidlt]
        · rw [getD_set_ne _ ha]
      have hlens' : ∀ a, a < st.arena.length →
          ((st.arena.set id
            { (st.arena.getD id default) with
                count := (st.arena.getD id default).count + 1 }).getD a default).words.length
            = K := by
        intro a ha
        rw [hwords_eq a]
        exact hLens _ (getD_mem default ha)
      have hK' : KeyedLt
          (ltArena (st.arena.set id
            { (st.arena.getD id default) with
                count := (st.arena.getD id default).count + 1 }))
          (rankOf (st.arena.set id
            { (st.arena.getD id default) with
                count := (st.arena.getD id default).count + 1 })) st.hp := by
        intro a ha b hb
        exact seqLess_eq_decide _ _ (by
          rw [hlens' a (hmemlt a ha), hlens' b (hmemlt b hb)])
      have hrlt := @rank_set_lt st.arena id hidlt
      have hranko : ∀ a, a ≠ id →
          rankOf (st.arena.set id
            { (st.arena.getD id default) with
                count := (st.arena.getD id default).count + 1 }) a = rankOf st.arena a :=
        fun a ha => rank_set_other _ ha
      have hedge : ∀ m, 0 < m → m < st.hp.length →
          ¬ rankOf st.arena (st.hp.getD m 0)
            < rankOf st.arena (st.hp.getD ((m - 1) / 2) 0) := by
        intro m hm0 hm
        have he := hHeap m hm0 hm
        rw [hKold _ (getD_mem 0 hm) _ (getD_mem 0 (by omega))] at he
        simpa using he
      have hfix := heapFixGo_correct
        (ltArena (st.arena.set id
          { (st.arena.getD id default) with
              count := (st.arena.getD id default).count + 1 })) 0
        (rankOf (st.arena.set id
          { (st.arena.getD id default) with
              count := (st.arena.getD id default).count + 1 }))
        hposlt hK'
        (by
          intro m hm0 hm hmp
          have humem : st.hp.getD m 0 ∈ st.hp := getD_mem 0 hm
          have hvmem : st.hp.getD ((m - 1) / 2) 0 ∈ st.hp := getD_mem 0 (by omega)
          have hu_ne : st.hp.getD m 0 ≠ id := hval_ne m hm hmp
          rw [hK' _ humem _ hvmem]
          simp only [decide_eq_false_iff_not]
          rw [hranko _ hu_ne]
          by_cases hpmpos : (m - 1) / 2 = st.hp.indexOf id
          · have hvv : st.hp.getD ((m - 1) / 2) 0 = id := by rw [hpmpos, hgetpos]
            rw [hvv]
            intro hcon
            have hed := hedge m hm0 hm
            rw [hvv] at hed
            exact hed (lt_trans hcon hrlt)
          · have hv_ne : st.hp.getD ((m - 1) / 2) 0 ≠ id := hval_ne _ (by omega) hpmpos
            rw [hranko _ hv_ne]
            exact hedge m hm0 hm)
        (by
          intro hpos0 c hc0 hc hcp
          have hc_ne_pos : c ≠ st.hp.indexOf id := by omega
          have hgp_ne_pos : (st.hp.indexOf id - 1) / 2 ≠ st.hp.indexOf id := by omega
          have humem : st.hp.getD c 0 ∈ st.hp := getD_mem 0 hc
          have hvmem : st.hp.getD ((st.hp.indexOf id - 1) / 2) 0 ∈ st.hp :=
            getD_mem 0 (by omega)
          have hu_ne : st.hp.getD c 0 ≠ id := hval_ne _ hc hc_ne_pos
          have hv_ne : st.hp.getD ((st.hp.indexOf id - 1) / 2) 0 ≠ id :=
            hval_ne _ (by omega) hgp_ne_pos
          rw [hK' _ humem _ hvmem]
          simp only [decide_eq_false_iff_not]
          rw [hranko _ hu_ne, hranko _ hv_ne]
          have h1 := hedge c hc0 hc
          rw [hcp, hgetpos] at h1
          have h2 := hedge (st.hp.indexOf id) hpos0 hposlt
          rw [hgetpos] at h2
          intro hcon
          rcases lt_or_ge (rankOf st.arena (st.hp.getD c 0)) (rankOf st.arena id) with h | h
          · exact h1 h
          · exact h2 (lt_of_le_of_lt h hcon))
      refine ⟨by simp; omega, ?_, ?_, ?_, ?_, ?_, hfix.1⟩
      · intro p hp
        simpa using hCache p hp
      · intro id2 hid2
        simp only [List.length_set] at hid2
        rw [hwords_eq id2]
        exact hComp id2 hid2
      · intro e he
        rcases List.mem_or_eq_of_mem_set he with he | he
        · exact hLens e he
        · subst he
          have := hLens _ (getD_mem default hidlt)
          simpa using this
      · intro i j hi hj hij
        simp only [List.length_set] at hi hj
        rw [hwords_eq i, hwords_eq j]
        exact hDist i j hi hj hij
      · refine hfix.2.trans ?_
        simpa using hPerm
    | none =>
      rw [stepWord_miss hlt hcl]
      have hnewlen : (st.arena ++ [({ words := st.window ++ [w], count := 1 } : SeqEntry)]).length
          = st.arena.length + 1 := by simp
      have hlens' : ∀ a, a < st.arena.length + 1 →
          ((st.arena ++ [({ words := st.window ++ [w], count := 1 } : SeqEntry)]).getD
            a default).words.length = K := by
        intro a ha
        rcases Nat.lt_or_ge a st.arena.length with ha' | ha'
        · rw [List.getD_append _ _ _ _ ha']
          exact hLens _ (getD_mem default ha')
        · have haa : a = st.arena.length := by omega
          subst haa
          rw [getD_append_self]
          exact hseqlen
      have hHeap' : IsHeap
          (ltArena (st.arena ++ [({ words := st.window ++ [w], count := 1 } : SeqEntry)])) 0 st.hp := by
        intro m hm0 hm
        rw [ltArena_append _ (hmemlt _ (getD_mem 0 hm)) (hmemlt _ (getD_mem 0 (by omega)))]
        exact hHeap m hm0 hm
      have hK' : KeyedLt
          (ltArena (st.arena ++ [({ words := st.window ++ [w], count := 1 } : SeqEntry)]))
          (rankOf (st.arena ++ [({ words := st.window ++ [w], count := 1 } : SeqEntry)]))
          (st.hp ++ [st.arena.length]) := by
        intro a ha b hb
        have hlt' : ∀ c, c ∈ st.hp ++ [st.arena.length] → c < st.arena.length + 1 := by
          intro c hc
          rcases List.mem_append.mp hc with hc | hc
          · have := hmemlt c hc
            omega
          · simp at hc
            omega
        exact seqLess_eq_decide _ _ (by rw [hlens' a (hlt' a ha), hlens' b (hlt' b hb)])
      have hpush := heapPushGo_correct
        (ltArena (st.arena ++ [({ words := st.window ++ [w], count := 1 } : SeqEntry)])) 0
        (rankOf (st.arena ++ [({ words := st.window ++ [w], count := 1 } : SeqEntry)]))
        hHeap' hK'
      refine ⟨by simp; omega, ?_, ?_, ?_, ?_, ?_, hpush.1⟩
      · intro p hp
        rcases List.mem_cons.mp hp with hp | hp
        · subst hp
          simp
        · have := hCache p hp
          simp only [hnewlen]
          omega
      · intro id2 hid2
        rw [hnewlen] at hid2
        rcases Nat.lt_or_ge id2 st.arena.length with hi2 | hi2
        · rw [List.getD_append _ _ _ _ hi2]
          exact List.mem_cons_of_mem _ (hComp id2 hi2)
        · have haa : id2 = st.arena.length := by omega
          subst haa
          rw [getD_append_self]
          exact List.mem_cons_self _ _
      · intro e he
        rcases List.mem_append.mp he with he | he
        · exact hLens e he
        · simp at he
          subst he
          exact hseqlen
      · intro i j hi hj hij
        rw [hnewlen] at hi hj
        rcases Nat.lt_or_ge i st.arena.length with hi' | hi'
        · rcases Nat.lt_or_ge j st.arena.length with hj' | hj'
          · rw [List.getD_append _ _ _ _ hi', List.getD_append _ _ _ _ hj']
            exact hDist i j hi' hj' hij
          · have haa : j = st.arena.length := by omega
            subst haa
            rw [List.getD_append _ _ _ _ hi', getD_append_self]
            intro heq
            have hmem := hComp i hi'
            rw [heq] at hmem
            exact lookup_none_not_mem hcl i hmem
        · have haa : i = st.arena.length := by omega
          subst haa
          have hj' : j < st.arena.length := by omega
          rw [List.getD_append _ _ _ _ hj', getD_append_self]
          intro heq
          have hmem := hComp j hj'
          rw [← heq] at hmem
          exact lookup_none_not_mem hcl j hmem
      · refine hpush.2.trans ?_
        rw [hnewlen, List.range_succ]
        exact hPerm.append (List.Perm.refl _)

theorem extractTop_length (arena : List SeqEntry) :
    ∀ (tn : Nat) (hp : List Nat), (extractTop arena tn hp).length ≤ tn
  | 0, _ => by simp [extractTop]
  | _ + 1, [] => by simp [extractTop]
  | tn + 1, h :: t => by
    rw [extractTop]
    simpa using extractTop_length arena tn _

theorem extractTop_mem (arena : List SeqEntry) :
    ∀ (tn : Nat) (hp : List Nat),
      IsHeap (ltArena arena) 0 hp →
      KeyedLt (ltArena arena) (rankOf arena) hp →
      ∀ e ∈ extractTop arena tn hp, ∃ i ∈ hp, e = arena.getD i default
  | 0, hp, _, _ => by simp [extractTop]
  | _ + 1, [], _, _ => by simp [extractTop]
  | tn + 1, h :: t, hH, hK => by
    intro e he
    rw [extractTop] at he
    obtain ⟨hperm, hH2, hlen2, hmem1, hmin⟩ :=
      heapPopGo_correct (ltArena arena) 0 (rankOf arena) (l := h :: t) (by simp) hH hK
    have hsub : ∀ y ∈ (heapPopGo (ltArena arena) 0 (h :: t)).2, y ∈ h :: t :=
      fun y hy => hperm.symm.subset (by simp [hy])
    rcases List.mem_cons.mp he with he | he
    · exact ⟨_, hmem1, he⟩
    · have hK2 : KeyedLt (ltArena arena) (rankOf arena)
          (heapPopGo (ltArena arena) 0 (h :: t)).2 :=
        fun a ha b hb => hK a (hsub a ha) b (hsub b hb)
      obtain ⟨i, hi, hei⟩ := extractTop_mem arena tn _ hH2 hK2 e he
      exact ⟨i, hsub i hi, hei⟩

theorem seqLess_true_iff (a b : SeqEntry) :
    seqLess a b = true ↔
      b.count < a.count ∨ (a.count = b.count ∧ wordsLess a.words b.words = true) := by
  rw [seqLess]
  by_cases hc : a.count = b.count
  · rw [if_neg (by simp [hc])]
    simp [hc]
  · rw [if_pos (by simp [hc])]
    simp only [decide_eq_true_eq, gt_iff_lt]
    constructor
    · intro hh
      exact Or.inl hh
    · intro hh
      rcases hh with hh | hh
      · exact hh
      · exact absurd hh.1 hc

theorem initPState_procInv {K : Nat} (hK : 1 ≤ K) : ProcInv K initPState := by
  refine ⟨by simpa [initPState] using hK, ?_, ?_, ?_, ?_, ?_, ?_⟩
  · intro p hp
    simp [initPState] at hp
  · intro id hid
    simp [initPState] at hid
  · intro e he
    simp [initPState] at he
  · intro i j hi
    simp [initPState] at hi
  · simp [initPState]
  · intro m hm0 hm
    simp [initPState] at hm

theorem stepTok_procInv {K : Nat} (ip : Char → Bool) (tl : Char → Char)
    (st : PState) (tok : List Char) (hInv : ProcInv K st) :
    ProcInv K (stepTok ip tl K st tok) := by
  rw [stepTok]
  cases normalizeWord ip tl tok with
  | none => exact hInv
  | some w => exact stepWord_procInv st w hInv

theorem foldl_stepTok_procInv {K : Nat} (ip : Char → Bool) (tl : Char → Char) :
    ∀ (toks : List (List Char)) (st : PState), ProcInv K st →
      ProcInv K (toks.foldl (stepTok ip tl K) st)
  | [], _, h => h
  | tok :: toks, st, h =>
    foldl_stepTok_procInv ip tl toks _ (stepTok_procInv ip tl st tok h)

theorem c1_ranked_extraction (cls : Classifier) (ip : Char → Bool) (tl : Char → Char)
    {ε : Type} (src : List Char) (fin : Option ε) (seqSize topN : Int)
    (res : List SeqEntry)
    (h : ProcessGo cls ip tl src fin seqSize topN = .ok res) :
    res.length ≤ topN.toNat ∧
    (∀ e ∈ res, e.words.length = seqSize.toNat) ∧
    List.Chain' (fun a b =>
      b.count < a.count ∨ (a.count = b.count ∧ wordsLess a.words b.words = true)) res := by
  simp only [ProcessGo] at h
  by_cases hcfg : (seqSize < 1 || decide (topN < 1)) = true
  · rw [if_pos hcfg] at h
    exact absurd h (by simp)
  · rw [if_neg hcfg] at h
    cases hw : (readWords cls (ε := ε) fin src []).2 with
    | some e =>
      rw [hw] at h
      exact absurd h (by simp)
    | none =>
      rw [hw] at h
      simp only [Except.ok.injEq] at h
      have hK' : 1 ≤ seqSize.toNat := by
        simp only [Bool.or_eq_true, decide_eq_true_eq, not_or] at hcfg
        omega
      have inv := foldl_stepTok_procInv ip tl
        (readWords cls (ε := ε) fin src []).1 initPState (initPState_procInv hK')
      subst h
      refine ⟨extractTop_length _ _ _, ?_, ?_⟩
      · intro e he
        obtain ⟨i, hi, hei⟩ := extractTop_mem _ _ _ inv.2.2.2.2.2.2
          (procInv_keyedLt inv) e he
        have hperm := inv.2.2.2.2.2.1
        have hilt := List.mem_range.mp (hperm.subset hi)
        subst hei
        exact inv.2.2.2.1 _ (getD_mem default hilt)
      · have hch := extractTop_chain _ topN.toNat _ inv.2.2.2.2.2.2
          (procInv_keyedLt inv) (procInv_rankInj inv) (procInv_nodup inv)
        exact List.Chain'.imp (fun a b hab => (seqLess_true_iff a b).mp hab) hch

theorem keepRune_false_of_r (cls : Classifier) (buf : List Char) (r next : Char)
    (h1 : (r == lineFeed) = false)
    (h2 : glueAfterZWJ cls r = false) (h3 : ebg cls r = false)
    (h4 : extendT cls r = false) (h5 : formatT cls r = false) (h6 : (r == zwj) = false)
    (h7 : ahLetter cls r = false) (h8 : midLetter cls r = false)
    (h9 : midNumLetQ cls r = false) (h10 : hebrew cls r = false)
    (h11 : (r == doubleQuote) = false) (h12 : numeric cls r = false)
    (h13 : midnum cls r = false) (h14 : katakana cls r = false)
    (h15 : extendNumLet cls r = false) (h16 : eModifier cls r = false)
    (h17 : ri cls r = false) (h18 : (r == singleQuote) = false) :
    keepRune cls buf r next = false := by
  have hcl : wbClassify cls buf r next = .wb3a ∨ wbClassify cls buf r next = .wb3b ∨
      wbClassify cls buf r next = .wb999 := by
    simp only [wbClassify, h1, h2, h3, h4, h5, h6, h7, h8, h9, h10, h11, h12,
      h13, h14, h15, h16, h17, h18, Bool.or_false, Bool.false_or, Bool.and_false,
      Bool.false_and, Bool.or_self, Bool.false_eq_true, if_false]
    split
    · exact Or.inl rfl
    · split
      · exact Or.inr (Or.inl rfl)
      · exact Or.inr (Or.inr rfl)
  rcases hcl with h | h | h <;> simp only [keepRune, h]

theorem keepRune_false_of_other {cls : Classifier} {r : Char} (hk : cls r = .otherCl)
    (h1 : (r == lineFeed) = false) (h6 : (r == zwj) = false)
    (h11 : (r == doubleQuote) = false) (h18 : (r == singleQuote) = false)
    (buf : List Char) (next : Char) : keepRune cls buf r next = false := by
  refine keepRune_false_of_r cls buf r next h1 ?_ ?_ ?_ ?_ h6 ?_ ?_ ?_ ?_ h11 ?_ ?_
      ?_ ?_ ?_ ?_ h18 <;>
    simp [glueAfterZWJ, ebg, extendT, formatT, ahLetter, midLetter, midNumLetQ, hebrew,
      numeric, midnum, katakana, extendNumLet, eModifier, ri, hk, h18]

theorem keepRune_false_of_newline {cls : Classifier} {r : Char} (hk : cls r = .newlineCl)
    (h1 : (r == lineFeed) = false) (h6 : (r == zwj) = false)
    (h11 : (r == doubleQuote) = false) (h18 : (r == singleQuote) = false)
    (buf : List Char) (next : Char) : keepRune cls buf r next = false := by
  refine keepRune_false_of_r cls buf r next h1 ?_ ?_ ?_ ?_ h6 ?_ ?_ ?_ ?_ h11 ?_ ?_
      ?_ ?_ ?_ ?_ h18 <;>
    simp [glueAfterZWJ, ebg, extendT, formatT, ahLetter, midLetter, midNumLetQ, hebrew,
      numeric, midnum, katakana, extendNumLet, eModifier, ri, hk, h18]

theorem keepRune_false_of_cr {cls : Classifier} {r : Char} (hk : cls r = .crCl)
    (h1 : (r == lineFeed) = false) (h6 : (r == zwj) = false)
    (h11 : (r == doubleQuote) = false) (h18 : (r == singleQuote) = false)
    (buf : List Char) (next : Char) : keepRune cls buf r next = false := by
  refine keepRune_false_of_r cls buf r next h1 ?_ ?_ ?_ ?_ h6 ?_ ?_ ?_ ?_ h11 ?_ ?_
      ?_ ?_ ?_ ?_ h18 <;>
    simp [glueAfterZWJ, ebg, extendT, formatT, ahLetter, midLetter, midNumLetQ, hebrew,
      numeric, midnum, katakana, extendNumLet, eModifier, ri, hk, h18]

theorem keepRune_lf (cls : Classifier) (buf : List Char) (next : Char)
    (hlit : (getLastRune buf == carriageReturn) = false) :
    keepRune cls buf lineFeed next = false := by
  have h3 : (getLastRune buf == carriageReturn && (lineFeed == lineFeed)) = false := by
    rw [hlit]; rfl
  have hb : (newline cls lineFeed || lineFeed == carriageReturn ||
      lineFeed == lineFeed) = true := by simp
  have hcl : wbClassify cls buf lineFeed next = .wb3a ∨
      wbClassify cls buf lineFeed next = .wb3b := by
    simp only [wbClassify, h3, Bool.false_eq_true, if_false]
    by_cases hA : (newline cls (lastRunes cls buf).1 ||
        (lastRunes cls buf).1 == carriageReturn ||
        (lastRunes cls buf).1 == lineFeed) = true
    · rw [if_pos hA]
      exact Or.inl rfl
    · rw [if_neg hA, if_pos hb]
      exact Or.inr rfl
  rcases hcl with h | h <;> rw [keepRune.eq_def, h]

theorem keepRune_wb3a (cls : Classifier) (buf : List Char) (r next : Char)
    (h3 : (getLastRune buf == carriageReturn && r == lineFeed) = false)
    (ha : (newline cls (lastRunes cls buf).1 ||
      (lastRunes cls buf).1 == carriageReturn ||
      (lastRunes cls buf).1 == lineFeed) = true) :
    keepRune cls buf r next = false := by
  simp only [keepRune, wbClassify, h3, Bool.false_eq_true, if_false, ha, if_true]

theorem keep_not_ws {cls : Classifier} {ip : Char → Bool} {tl : Char → Char}
    (nf : NormFacts cls ip tl) {buf : List Char} {r next : Char}
    (hlit : (getLastRune buf == carriageReturn) = false)
    (hkeep : keepRune cls buf r next = true) : WS r = false := by
  by_contra hws
  rw [Bool.not_eq_false, WS] at hws
  simp only [Bool.or_eq_true, beq_iff_eq] at hws
  rcases hws with (((((((h | h) | h) | h) | h) | h) | h) | h) <;> subst h
  · rw [keepRune_false_of_other nf.cls_sp (by decide) (by decide) (by decide) (by decide)
      buf next] at hkeep
    exact absurd hkeep (by simp)
  · rw [keepRune_false_of_other nf.cls_tab (by decide) (by decide) (by decide) (by decide)
      buf next] at hkeep
    exact absurd hkeep (by simp)
  · have hh := keepRune_lf cls buf next hlit
    rw [show lineFeed = '\u000a' from rfl] at hh
    rw [hh] at hkeep
    exact absurd hkeep (by simp)
  · rw [keepRune_false_of_newline nf.cls_vt (by decide) (by decide) (by decide) (by decide)
      buf next] at hkeep
    exact absurd hkeep (by simp)
  · rw [keepRune_false_of_newline nf.cls_ff (by decide) (by decide) (by decide) (by decide)
      buf next] at hkeep
    exact absurd hkeep (by simp)
  · rw [keepRune_false_of_cr nf.cls_cr (by decide) (by decide) (by decide) (by decide)
      buf next] at hkeep
    exact absurd hkeep (by simp)
  · rw [keepRune_false_of_newline nf.cls_nel (by decide) (by decide) (by decide) (by decide)
      buf next] at hkeep
    exact absurd hkeep (by simp)
  · rw [keepRune_false_of_other nf.cls_nbsp (by decide) (by decide) (by decide) (by decide)
      buf next] at hkeep
    exact absurd hkeep (by simp)

theorem SCl_props {k : CPClass} (h : SCl k = true) :
    (k == .aletter) = false ∧ (k == .hebrewLetter) = false ∧ (k == .numericCl) = false ∧
    (k == .katakanaCl) = false ∧ (k == .extendNumLetCl) = false ∧
    (k == .regionalIndicator) = false ∧ (k == .eBaseCl) = false := by
  revert h
  cases k <;> decide

theorem firstRetained_SCl (cls : Classifier) (hfffd : cls runeError = .otherCl) :
    ∀ l : List Char, (∀ x ∈ l, SProp cls x) →
      SCl (cls (firstRetained cls l).1) = true ∧
      ∀ x ∈ (firstRetained cls l).2, SProp cls x
  | [], _ => by
    constructor
    · simp [firstRetained, hfffd, SCl]
    · intro x hx
      simp [firstRetained] at hx
  | c :: rest, h => by
    have hc := h c (List.mem_cons_self c rest)
    simp only [firstRetained]
    rw [if_neg (by simp [hc.1])]
    by_cases hskip : (extendT cls c || formatT cls c) = true
    · rw [if_pos hskip]
      exact firstRetained_SCl cls hfffd rest (fun x hx => h x (List.mem_cons_of_mem c hx))
    · rw [if_neg hskip]
      refine ⟨?_, fun x hx => h x (List.mem_cons_of_mem c hx)⟩
      rcases hc.2 with hh | hh
      · exact absurd hh hskip
      · exact hh

theorem lastRunes_SCl (cls : Classifier) (hfffd : cls runeError = .otherCl)
    (buf : List Char) (h : ∀ x ∈ buf, SProp cls x) :
    SCl (cls (lastRunes cls buf).1) = true ∧ SCl (cls (lastRunes cls buf).2) = true := by
  have h1 := firstRetained_SCl cls hfffd buf.reverse
    (fun x hx => h x (List.mem_reverse.mp hx))
  have h2 := firstRetained_SCl cls hfffd _ h1.2
  exact ⟨h1.1, h2.1⟩

theorem keep_keepish {cls : Classifier} {buf : List Char} {r next : Char}
    (hS1 : SCl (cls (lastRunes cls buf).1) = true)
    (hS2 : SCl (cls (lastRunes cls buf).2) = true)
    (hlit : (getLastRune buf == carriageReturn) = false)
    (hkeep : keepRune cls buf r next = true) : Keepish cls r = true := by
  obtain ⟨p1, p2, p3, p4, p5, p6, p7⟩ := SCl_props hS1
  obtain ⟨q1, q2, q3, q4, q5, q6, q7⟩ := SCl_props hS2
  have h3 : (getLastRune buf == carriageReturn && r == lineFeed) = false := by
    rw [hlit]; rfl
  have hres : wbClassify cls buf r next = .wb3a ∨ wbClassify cls buf r next = .wb3b ∨
      wbClassify cls buf r next = .wb999 ∨ Keepish cls r = true := by
    simp only [wbClassify, h3, Bool.false_eq_true, if_false, ahLetter, hebrew, numeric,
      katakana, extendNumLet, ri, eBase, p1, p2, p3, p4, p5, p6, p7, q1, q2, q3, q4,
      Bool.false_or, Bool.or_false, Bool.false_and, Bool.and_false]
    by_cases hA : (newline cls (lastRunes cls buf).1 ||
        (lastRunes cls buf).1 == carriageReturn ||
        (lastRunes cls buf).1 == lineFeed) = true
    · rw [if_pos hA]
      exact Or.inl rfl
    · rw [if_neg hA]
      by_cases hB : (newline cls r || r == carriageReturn || r == lineFeed) = true
      · rw [if_pos hB]
        exact Or.inr (Or.inl rfl)
      · rw [if_neg hB]
        by_cases hC : ((lastRunes cls buf).1 == zwj &&
            (glueAfterZWJ cls r || ebg cls r)) = true
        · rw [if_pos hC]
          refine Or.inr (Or.inr (Or.inr ?_))
          have := (Bool.and_eq_true _ _).mp hC
          rcases (Bool.or_eq_true _ _).mp this.2 with h | h <;> simp [Keepish, h]
        · rw [if_neg hC]
          by_cases hD : (extendT cls r || formatT cls r || r == zwj) = true
          · rw [if_pos hD]
            refine Or.inr (Or.inr (Or.inr ?_))
            simp [Keepish, hD]
          · rw [if_neg hD]
            by_cases hE : (ebg cls (lastRunes cls buf).1 && eModifier cls r) = true
            · rw [if_pos hE]
              refine Or.inr (Or.inr (Or.inr ?_))
              simp [Keepish, ((Bool.and_eq_true _ _).mp hE).2]
            · rw [if_neg hE]
              exact Or.inr (Or.inr (Or.inl rfl))
  rcases hres with h | h | h | h
  · rw [keepRune.eq_def, h] at hkeep
    exact absurd hkeep (by decide)
  · rw [keepRune.eq_def, h] at hkeep
    exact absurd hkeep (by decide)
  · rw [keepRune.eq_def, h] at hkeep
    exact absurd hkeep (by decide)
  · exact h

theorem getLastRune_ne_cr {buf : List Char}
    (h : ∀ x ∈ buf, (x == carriageReturn) = false) :
    (getLastRune buf == carriageReturn) = false := by
  rw [getLastRune]
  cases hb : buf.getLast? with
  | none => rfl
  | some x =>
    simp only [Option.getD_some]
    exact h x (List.mem_of_mem_getLast? hb)

theorem beq_cr_false_of_nws {x : Char} (h : WS x = false) :
    (x == carriageReturn) = false := by
  cases hx : x == carriageReturn
  · rfl
  · have hxe : x = carriageReturn := by simpa using hx
    subst hxe
    exact absurd h (by decide)

theorem keepish_ne_cr {cls : Classifier} {ip : Char → Bool} {tl : Char → Char}
    (nf : NormFacts cls ip tl) {x : Char}
    (h : Keepish cls x = true) : (x == carriageReturn) = false := by
  cases hx : x == carriageReturn
  · rfl
  · have hxe : x = carriageReturn := by simpa using hx
    subst hxe
    rw [Keepish, extendT, formatT, glueAfterZWJ, ebg, eModifier,
      show carriageReturn = '\u000d' from rfl] at h
    rw [nf.cls_cr] at h
    exact absurd h (by decide)

theorem spacehead_ne_cr {c : Char} (h : SpaceHead c = true) :
    (c == carriageReturn) = false := by
  rw [SpaceHead] at h
  simp only [Bool.or_eq_true, beq_iff_eq] at h
  rcases h with (h | h) | h <;> subst h <;> decide

theorem sprop_of_spacehead {cls : Classifier} {ip : Char → Bool} {tl : Char → Char}
    (nf : NormFacts cls ip tl) {c : Char} (h : SpaceHead c = true) : SProp cls c := by
  rw [SpaceHead] at h
  simp only [Bool.or_eq_true, beq_iff_eq] at h
  rcases h with (h | h) | h <;> subst h
  · exact ⟨by decide, Or.inr (by rw [SCl, nf.cls_sp]; decide)⟩
  · exact ⟨by decide, Or.inr (by rw [SCl, nf.cls_tab]; decide)⟩
  · exact ⟨by decide, Or.inr (by rw [SCl, nf.cls_nbsp]; decide)⟩

theorem sprop_of_keepish {cls : Classifier} {ip : Char → Bool} {tl : Char → Char}
    (nf : NormFacts cls ip tl) {x : Char}
    (h : Keepish cls x = true) : SProp cls x := by
  have hne : (x == runeError) = false := by
    cases hx : x == runeError
    · rfl
    · exfalso
      have hxe : x = runeError := by simpa using hx
      subst hxe
      rw [Keepish, extendT, formatT, glueAfterZWJ, ebg, eModifier,
        show runeError = '\ufffd' from rfl] at h
      rw [nf.cls_fffd] at h
      exact absurd h (by decide)
  refine ⟨hne, ?_⟩
  rw [Keepish] at h
  simp only [Bool.or_eq_true] at h
  rcases h with ((((h | h) | h) | h) | h) | h
  · exact Or.inl (by simp [h])
  · exact Or.inl (by simp [h])
  · have hxe : x = zwj := by simpa using h
    subst hxe
    refine Or.inr ?_
    rw [SCl, show zwj = '\u200d' from rfl, nf.cls_zwj]
    decide
  · have hcc : cls x = .glueAfterZwjCl := by simpa [glueAfterZWJ] using h
    exact Or.inr (by rw [SCl, hcc]; decide)
  · have hcc : cls x = .eBaseGAZCl := by simpa [ebg] using h
    exact Or.inr (by rw [SCl, hcc]; decide)
  · have hcc : cls x = .eModifierCl := by simpa [eModifier] using h
    exact Or.inr (by rw [SCl, hcc]; decide)

theorem goodBuf_singleton (cls : Classifier) (r : Char) : GoodBuf cls [r] := by
  by_cases hws : WS r = true
  · rw [WS] at hws
    simp only [Bool.or_eq_true, beq_iff_eq] at hws
    rcases hws with (((((((h | h) | h) | h) | h) | h) | h) | h) <;> subst h
    · exact Or.inr (Or.inr (Or.inr (Or.inr (Or.inr (Or.inr (Or.inr
        ⟨' ', [], by decide, rfl, by simp⟩))))))
    · exact Or.inr (Or.inr (Or.inr (Or.inr (Or.inr (Or.inr (Or.inr
        ⟨'\u0009', [], by decide, rfl, by simp⟩))))))
    · exact Or.inr (Or.inr (Or.inr (Or.inl rfl)))
    · exact Or.inr (Or.inr (Or.inr (Or.inr (Or.inl rfl))))
    · exact Or.inr (Or.inr (Or.inr (Or.inr (Or.inr (Or.inl rfl)))))
    · exact Or.inr (Or.inl rfl)
    · exact Or.inr (Or.inr (Or.inr (Or.inr (Or.inr (Or.inr (Or.inl rfl))))))
    · exact Or.inr (Or.inr (Or.inr (Or.inr (Or.inr (Or.inr (Or.inr
        ⟨'\u00a0', [], by decide, rfl, by simp⟩))))))
  · refine Or.inl ?_
    intro x hx
    simp at hx
    subst hx
    simpa using hws

theorem goodBuf_keep {cls : Classifier} {ip : Char → Bool} {tl : Char → Char}
    (nf : NormFacts cls ip tl) {buf : List Char} {r next : Char}
    (hg : GoodBuf cls buf) (hkeep : keepRune cls buf r next = true) :
    GoodBuf cls (buf ++ [r]) := by
  rcases hg with hg | hg | hg | hg | hg | hg | hg | hg
  · have hlit : (getLastRune buf == carriageReturn) = false :=
      getLastRune_ne_cr (fun x hx => beq_cr_false_of_nws (hg x hx))
    have hws := keep_not_ws nf hlit hkeep
    refine Or.inl ?_
    intro x hx
    rcases List.mem_append.mp hx with h | h
    · exact hg x h
    · simp at h
      subst h
      exact hws
  · subst hg
    by_cases hr : r = lineFeed
    · subst hr
      exact Or.inr (Or.inr (Or.inl rfl))
    · exfalso
      have e1 : ('\u000d' == runeError) = false := by decide
      have hl : (lastRunes cls ['\u000d']).1 = '\u000d' := by
        simp [lastRunes, firstRetained, e1, extendT, formatT, nf.cls_cr]
      have h3 : (getLastRune ['\u000d'] == carriageReturn && r == lineFeed) = false := by
        rw [show getLastRune ['\u000d'] = '\u000d' from rfl]
        simp [carriageReturn, hr]
      have hh := keepRune_wb3a cls ['\u000d'] r next h3 (by rw [hl]; simp [carriageReturn])
      rw [hh] at hkeep
      exact absurd hkeep (by simp)
  · subst hg
    exfalso
    have e1 : ('\u000a' == runeError) = false := by decide
    have hl : (lastRunes cls ['\u000d', '\u000a']).1 = '\u000a' := by
      simp [lastRunes, firstRetained, e1, extendT, formatT, nf.cls_lf]
    have h3 : (getLastRune ['\u000d', '\u000a'] == carriageReturn && r == lineFeed)
        = false := by
      rw [show (getLastRune ['\u000d', '\u000a'] == carriageReturn) = false from by decide]
      rfl
    have hh := keepRune_wb3a cls ['\u000d', '\u000a'] r next h3 (by rw [hl]; simp [lineFeed])
    rw [hh] at hkeep
    exact absurd hkeep (by simp)
  · subst hg
    exfalso
    have e1 : ('\u000a' == runeError) = false := by decide
    have hl : (lastRunes cls ['\u000a']).1 = '\u000a' := by
      simp [lastRunes, firstRetained, e1, extendT, formatT, nf.cls_lf]
    have h3 : (getLastRune ['\u000a'] == carriageReturn && r == lineFeed) = false := by
      rw [show (getLastRune ['\u000a'] == carriageReturn) = false from by decide]
      rfl
    have hh := keepRune_wb3a cls ['\u000a'] r next h3 (by rw [hl]; simp [lineFeed])
    rw [hh] at hkeep
    exact absurd hkeep (by simp)
  · subst hg
    exfalso
    have e1 : ('\u000b' == runeError) = false := by decide
    have hl : (lastRunes cls ['\u000b']).1 = '\u000b' := by
      simp [lastRunes, firstRetained, e1, extendT, formatT, nf.cls_vt]
    have h3 : (getLastRune ['\u000b'] == carriageReturn && r == lineFeed) = false := by
      rw [show (getLastRune ['\u000b'] == carriageReturn) = false from by decide]
      rfl
    have hh := keepRune_wb3a cls ['\u000b'] r next h3
      (by rw [hl]; simp [newline, nf.cls_vt])
    rw [hh] at hkeep
    exact absurd hkeep (by simp)
  · subst hg
    exfalso
    have e1 : ('\u000c' == runeError) = false := by decide
    have hl : (lastRunes cls ['\u000c']).1 = '\u000c' := by
      simp [lastRunes, firstRetained, e1, extendT, formatT, nf.cls_ff]
    have h3 : (getLastRune ['\u000c'] == carriageReturn && r == lineFeed) = false := by
      rw [show (getLastRune ['\u000c'] == carriageReturn) = false from by decide]
      rfl
    have hh := keepRune_wb3a cls ['\u000c'] r next h3
      (by rw [hl]; simp [newline, nf.cls_ff])
    rw [hh] at hkeep
    exact absurd hkeep (by simp)
  · subst hg
    exfalso
    have e1 : ('\u0085' == runeError) = false := by decide
    have hl : (lastRunes cls ['\u0085']).1 = '\u0085' := by
      simp [lastRunes, firstRetained, e1, extendT, formatT, nf.cls_nel]
    have h3 : (getLastRune ['\u0085'] == carriageReturn && r == lineFeed) = false := by
      rw [show (getLastRune ['\u0085'] == carriageReturn) = false from by decide]
      rfl
    have hh := keepRune_wb3a cls ['\u0085'] r next h3
      (by rw [hl]; simp [newline, nf.cls_nel])
    rw [hh] at hkeep
    exact absurd hkeep (by simp)
  · obtain ⟨c, t, hsh, rfl, ht⟩ := hg
    have hsp : ∀ x ∈ c :: t, SProp cls x := by
      intro x hx
      rcases List.mem_cons.mp hx with h | h
      · subst h
        exact sprop_of_spacehead nf hsh
      · exact sprop_of_keepish nf (ht x h)
    have hS := lastRunes_SCl cls
      (by rw [show runeError = '\ufffd' from rfl]; exact nf.cls_fffd) (c :: t) hsp
    have hlit : (getLastRune (c :: t) == carriageReturn) = false := by
      apply getLastRune_ne_cr
      intro x hx
      rcases List.mem_cons.mp hx with h | h
      · subst h
        exact spacehead_ne_cr hsh
      · exact keepish_ne_cr nf (ht x h)
    have hkp := keep_keepish hS.1 hS.2 hlit hkeep
    refine Or.inr (Or.inr (Or.inr (Or.inr (Or.inr (Or.inr (Or.inr
      ⟨c, t ++ [r], hsh, by simp, ?_⟩))))))
    intro x hx
    rcases List.mem_append.mp hx with h | h
    · exact ht x h
    · simp at h
      subst h
      exact hkp

theorem readWords_goodBuf {cls : Classifier} {ip : Char → Bool} {tl : Char → Char}
    (nf : NormFacts cls ip tl) {ε : Type} (fin : Option ε) :
    ∀ (src buf : List Char), GoodBuf cls buf →
      ∀ tok ∈ (readWords cls fin src buf).1, GoodBuf cls tok ∧ tok ≠ []
  | [], buf, hg => by
    intro tok htok
    cases fin with
    | some e =>
      rw [show readWords cls (some e) ([] : List Char) buf = ([], some e) from rfl] at htok
      simp at htok
    | none =>
      rw [show readWords cls (ε := ε) none ([] : List Char) buf
          = if buf.isEmpty then ([], none) else ([buf], none) from rfl] at htok
      by_cases hb : buf.isEmpty = true
      · rw [if_pos hb] at htok
        simp at htok
      · rw [if_neg hb] at htok
        simp only [List.mem_singleton] at htok
        subst htok
        exact ⟨hg, by simpa [List.isEmpty_iff] using hb⟩
  | r :: rest, buf, hg => by
    intro tok htok
    rw [readWords] at htok
    by_cases hk : keepRune cls buf r (peekRune rest) = true
    · rw [if_pos hk] at htok
      exact readWords_goodBuf nf fin rest (buf ++ [r]) (goodBuf_keep nf hg hk) tok htok
    · rw [if_neg hk] at htok
      by_cases hb : buf.isEmpty = true
      · rw [if_pos hb] at htok
        exact readWords_goodBuf nf fin rest [r] (goodBuf_singleton cls r) tok htok
      · rw [if_neg hb] at htok
        rcases List.mem_cons.mp htok with h | h
        · subst h
          exact ⟨hg, by simpa [List.isEmpty_iff] using hb⟩
        · exact readWords_goodBuf nf fin rest [r] (goodBuf_singleton cls r) tok h

theorem normalizeWord_parts {ip : Char → Bool} {tl : Char → Char} {tok w : List Char}
    (h : normalizeWord ip tl tok = some w) :
    isSpace tok = false ∧ w = (tok.filter (fun r => !ip r)).map tl ∧
      w.isEmpty = false := by
  simp only [normalizeWord] at h
  by_cases hs : isSpace tok = true
  · rw [if_pos hs] at h
    exact absurd h (by simp)
  · rw [if_neg hs] at h
    by_cases he : ((tok.filter (fun r => !ip r)).map tl).isEmpty = true
    · rw [if_pos he] at h
      exact absurd h (by simp)
    · rw [if_neg he] at h
      simp only [Option.some.injEq] at h
      subst h
      exact ⟨by simpa using hs, rfl, by simpa using he⟩

theorem normalizeWord_again {ip : Char → Bool} {tl : Char → Char}
    (hidem : ∀ c, tl (tl c) = tl c) (hiptl : ∀ c, ip (tl c) = ip c)
    {tok w : List Char} (h : normalizeWord ip tl tok = some w)
    (hs : isSpace w = false) : normalizeWord ip tl w = some w := by
  obtain ⟨h1, h2, h3⟩ := normalizeWord_parts h
  have hfil : w.filter (fun r => !ip r) = w := by
    rw [List.filter_eq_self]
    intro y hy
    rw [h2] at hy
    simp only [List.mem_map] at hy
    obtain ⟨x, hx, rfl⟩ := hy
    have hxip := List.of_mem_filter hx
    simpa [hiptl x] using hxip
  have hmap : w.map tl = w := by
    conv_lhs => rw [h2]
    rw [h2, List.map_map]
    exact List.map_congr_left (fun x _ => by simp [hidem x])
  simp only [normalizeWord]
  rw [if_neg (by simp [hs]), hfil, hmap, if_neg (by simp [h3])]

theorem isSpace_true_cases {s : List Char} (h : isSpace s = true) :
    ∃ y ys, s = y :: ys ∧ WS y = true := by
  rw [isSpace] at h
  simp only [Bool.or_eq_true, beq_iff_eq] at h
  rcases h with ((((((((h | h) | h) | h) | h) | h) | h) | h) | h) | h <;> subst h <;>
    exact ⟨_, _, rfl, by decide⟩

theorem isSpace_false_of_head {y : Char} {ys : List Char} (h : WS y = false) :
    isSpace (y :: ys) = false := by
  cases hs : isSpace (y :: ys)
  · rfl
  · obtain ⟨z, zs, hzz, hwz⟩ := isSpace_true_cases hs
    injection hzz with hyz hrest
    subst hyz
    exact absurd hwz (by simp [h])

theorem isSpace_false_of_spacehead {c x : Char} {xs : List Char}
    (h : SpaceHead c = true) : isSpace (c :: x :: xs) = false := by
  cases hs : isSpace (c :: x :: xs)
  · rfl
  · exfalso
    rw [isSpace] at hs
    simp only [Bool.or_eq_true, beq_iff_eq] at hs
    rcases hs with ((((((((hh | hh) | hh) | hh) | hh) | hh) | hh) | hh) | hh) | hh
    · simp at hh
    · simp at hh
    · simp at hh
    · simp at hh
    · simp at hh
    · simp at hh
    · simp at hh
    · simp at hh
    · rw [List.cons.injEq] at hh
      obtain ⟨rfl, -⟩ := hh
      exact absurd h (by decide)
    · rw [List.cons.injEq] at hh
      obtain ⟨rfl, -⟩ := hh
      exact absurd h (by decide)

theorem ws_of_spacehead {c : Char} (h : SpaceHead c = true) : WS c = true := by
  rw [SpaceHead] at h
  simp only [Bool.or_eq_true, beq_iff_eq] at h
  rcases h with (h | h) | h <;> subst h <;> decide

theorem isSpace_spacehead_singleton {c : Char} (h : SpaceHead c = true) :
    isSpace [c] = true := by
  rw [SpaceHead] at h
  simp only [Bool.or_eq_true, beq_iff_eq] at h
  rcases h with (h | h) | h <;> subst h <;> decide

theorem goodBuf_isSpace_false {cls : Classifier} {ip : Char → Bool} {tl : Char → Char}
    (nf : NormFacts cls ip tl) {tok w : List Char} (hg : GoodBuf cls tok)
    (h : normalizeWord ip tl tok = some w) : isSpace w = false := by
  obtain ⟨h1, h2, h3⟩ := normalizeWord_parts h
  rcases hg with hg | hg | hg | hg | hg | hg | hg | hg
  · cases hw : w with
    | nil =>
      rw [hw] at h3
      simp at h3
    | cons y ys =>
      have hy : y ∈ w := by
        rw [hw]
        exact List.mem_cons_self y ys
      rw [h2] at hy
      simp only [List.mem_map] at hy
      obtain ⟨x, hx, hxy⟩ := hy
      have hyw := nf.tl_nws x (hg x (List.mem_of_mem_filter hx))
      rw [hxy] at hyw
      exact isSpace_false_of_head hyw
  · subst hg
    exact absurd h1 (by decide)
  · subst hg
    exact absurd h1 (by decide)
  · subst hg
    exact absurd h1 (by decide)
  · subst hg
    exact absurd h1 (by decide)
  · subst hg
    exact absurd h1 (by decide)
  · subst hg
    exact absurd h1 (by decide)
  · obtain ⟨c, t, hsh, rfl, ht⟩ := hg
    have hipc : ip c = false := nf.ip_ws c (ws_of_spacehead hsh)
    have hfil : (c :: t).filter (fun r => !ip r) = c :: t := by
      rw [List.filter_eq_self]
      intro y hy
      rcases List.mem_cons.mp hy with hh | hh
      · subst hh
        simp [hipc]
      · simp [nf.ip_keepish y (ht y hh)]
    have hwc : w = tl c :: t.map tl := by
      rw [h2, hfil, List.map_cons]
    have htlc : tl c = c := nf.tl_ws c (ws_of_spacehead hsh)
    cases hts : t with
    | nil =>
      subst hts
      exact absurd h1 (by simp [isSpace_spacehead_singleton hsh])
    | cons x ts =>
      rw [hwc, htlc, hts, List.map_cons]
      exact isSpace_false_of_spacehead hsh

/-- C9: normalization is idempotent on its own output — for any token the
segmenter emits, if the normalization step keeps it as `w`, normalizing `w`
again keeps it unchanged.  The facts about the word-break tables,
`unicode.IsPunct` and `unicode.ToLower` that the argument uses are the
`NormFacts` hypothesis. -/
theorem c9_normalization_idempotent (cls : Classifier) (ip : Char → Bool)
    (tl : Char → Char) {ε : Type} (fin : Option ε) (src : List Char)
    (nf : NormFacts cls ip tl) (tok w : List Char)
    (htok : tok ∈ (readWords cls fin src []).1)
    (hw : normalizeWord ip tl tok = some w) :
    normalizeWord ip tl w = some w := by
  have hg := readWords_goodBuf nf fin src [] (Or.inl (by simp)) tok htok
  exact normalizeWord_again nf.tl_idem nf.ip_tl hw (goodBuf_isSpace_false nf hg.1 hw)

theorem char_toNat_ofNat {n : Nat} (h : n < 55296) : (Char.ofNat n).toNat = n := by
  unfold Char.ofNat
  rw [dif_pos (Or.inl h)]
  rfl

theorem ne_of_toNat_ne {c d : Char} (h : c.toNat ≠ d.toNat) : (c == d) = false := by
  cases hb : c == d
  · rfl
  · have hcd : c = d := by simpa using hb
    subst hcd
    exact absurd rfl h

theorem sampleTl_toNat {c : Char} (h : 'A' ≤ c ∧ c ≤ 'Z') :
    (sampleTl c).toNat = c.toNat + 32 ∧ 65 ≤ (sampleTl c).toNat ∧
      (sampleTl c).toNat ≤ 122 := by
  have h1 : 65 ≤ c.toNat := h.1
  have h2 : c.toNat ≤ 90 := h.2
  rw [sampleTl, if_pos h]
  have ht := char_toNat_ofNat (n := c.toNat + 32) (by omega)
  exact ⟨ht, by omega, by omega⟩

theorem ws_false_of_toNat {x : Char} (h65 : 65 ≤ x.toNat) (h122 : x.toNat ≤ 122) :
    WS x = false := by
  cases hb : WS x
  · rfl
  · exfalso
    rw [WS] at hb
    simp only [Bool.or_eq_true, beq_iff_eq] at hb
    rcases hb with ((((((h | h) | h) | h) | h) | h) | h) | h <;> subst h <;>
      revert h65 h122 <;> decide

theorem sampleIp_false_of_toNat {x : Char} (h65 : 65 ≤ x.toNat) (h122 : x.toNat ≤ 122) :
    sampleIp x = false := by
  simp only [sampleIp, decide_eq_false_iff_not]
  intro hcon
  rcases hcon with h | h | h | h | h | h | h | h | h | h | h <;>
    subst h <;> revert h65 h122 <;> decide

theorem sampleTl_fix {x : Char} (h : ¬('A' ≤ x ∧ x ≤ 'Z')) : sampleTl x = x := by
  rw [sampleTl, if_neg h]

theorem sampleTl_not_upper {x : Char} (h97 : 97 ≤ x.toNat) : ¬('A' ≤ x ∧ x ≤ 'Z') := by
  intro hc
  have h2 : x.toNat ≤ 90 := hc.2
  omega

set_option maxHeartbeats 2000000 in
/-- Modelled from the spec: the sample Unicode data satisfies the table
facts used by the idempotence theorem. -/
theorem sampleNormFacts : NormFacts sampleCls sampleIp sampleTl := by
  refine ⟨by decide, by decide, by decide, by decide, by decide, by decide, by decide,
    by decide, by decide, by decide, ?_, ?_, ?_, ?_, ?_, ?_⟩
  · intro c h
    rw [WS] at h
    simp only [Bool.or_eq_true, beq_iff_eq] at h
    rcases h with ((((((h | h) | h) | h) | h) | h) | h) | h <;> subst h <;> decide
  · intro c h
    cases hip : sampleIp c
    · rfl
    · exfalso
      simp only [sampleIp, decide_eq_true_eq] at hip
      rcases hip with h1 | h1 | h1 | h1 | h1 | h1 | h1 | h1 | h1 | h1 | h1 <;> subst h1 <;>
        exact absurd h (by decide)
  · intro c h
    rw [WS] at h
    simp only [Bool.or_eq_true, beq_iff_eq] at h
    rcases h with ((((((h | h) | h) | h) | h) | h) | h) | h <;> subst h <;> decide
  · intro c h
    by_cases hup : 'A' ≤ c ∧ c ≤ 'Z'
    · obtain ⟨ht, h65, h122⟩ := sampleTl_toNat hup
      have h1 : 65 ≤ c.toNat := hup.1
      exact ws_false_of_toNat (by omega) h122
    · rw [sampleTl_fix hup]
      exact h
  · intro c
    by_cases hup : 'A' ≤ c ∧ c ≤ 'Z'
    · obtain ⟨ht, h65, h122⟩ := sampleTl_toNat hup
      have h1 : 65 ≤ c.toNat := hup.1
      have h2 : c.toNat ≤ 90 := hup.2
      exact sampleTl_fix (sampleTl_not_upper (by omega))
    · rw [sampleTl_fix hup]
      exact sampleTl_fix hup
  · intro c
    by_cases hup : 'A' ≤ c ∧ c ≤ 'Z'
    · obtain ⟨ht, h65, h122⟩ := sampleTl_toNat hup
      have h1 : 65 ≤ c.toNat := hup.1
      have h2 : c.toNat ≤ 90 := hup.2
      rw [sampleIp_false_of_toNat h65 h122, sampleIp_false_of_toNat h1 (by omega)]
    · rw [sampleTl_fix hup]

/-- Witness for C9 at a concrete input: the token stream of `"A"` emits the
token `A`, which normalizes to `a`, and normalizing `a` again returns it
unchanged. -/
theorem c9_normalization_idempotent_witness :
    NormFacts sampleCls sampleIp sampleTl ∧
    ['A'] ∈ (readWords sampleCls (none : Option Unit) "A".toList []).1 ∧
    normalizeWord sampleIp sampleTl ['A'] = some ['a'] ∧
    normalizeWord sampleIp sampleTl ['a'] = some ['a'] := by
  refine ⟨sampleNormFacts, ?_, ?_, ?_⟩
  · decide
  · decide
  · exact c9_normalization_idempotent sampleCls sampleIp sampleTl
      (none : Option Unit) "A".toList sampleNormFacts ['A'] ['a'] (by decide) (by decide)


/-- Witness for C1 at a concrete input: `"a b a"` with `K = 2`, `topN = 3`
returns two count-1 sequences in ascending word order. -/
theorem c1_ranked_extraction_witness :
    (ProcessGo sampleCls sampleIp sampleTl (ε := Unit) "a b a".toList none 2 3 =
      .ok [⟨[['a'], ['b']], 1⟩, ⟨[['b'], ['a']], 1⟩]) ∧
    ([⟨[['a'], ['b']], 1⟩, ⟨[['b'], ['a']], 1⟩] : List SeqEntry).length ≤
      (3 : Int).toNat ∧
    (∀ e ∈ ([⟨[['a'], ['b']], 1⟩, ⟨[['b'], ['a']], 1⟩] : List SeqEntry),
      e.words.length = (2 : Int).toNat) ∧
    List.Chain' (fun a b =>
      b.count < a.count ∨ (a.count = b.count ∧ wordsLess a.words b.words = true))
      ([⟨[['a'], ['b']], 1⟩, ⟨[['b'], ['a']], 1⟩] : List SeqEntry) := by
  have h : ProcessGo sampleCls sampleIp sampleTl (ε := Unit) "a b a".toList none 2 3 =
      .ok [⟨[['a'], ['b']], 1⟩, ⟨[['b'], ['a']], 1⟩] := by rfl
  exact ⟨h, c1_ranked_extraction sampleCls sampleIp sampleTl "a b a".toList none 2 3 _ h⟩

end NR
